import Mathlib

/-!
# Verification of the mediawarn NLP detection pipeline

Shallow embedding of the Python sources under `src/nlp/app/` and proofs
about them:

* `models.py` — the detection aggregator (`analyze_text`,
  `_run_model_analysis`, `_score_to_severity`, `_map_label_to_categories`,
  `_combine_results`);
* `worker.py` — the job orchestrator (`process_job`, `store_scan_results`,
  `update_file_status`) over an explicit transactional store model;
* `subtitle_parser.py` — the SRT segmenter (`parse_srt_content`,
  `convert_srt_time_to_seconds`), with the `re.findall` pattern realised
  as a deterministic character-level scanner.

Python floats are modelled as exact rationals (`ℚ`); `round(x, 3)` is
modelled as rounding `x` to a multiple of `1/1000` with ties to even
(Python's banker's rounding), on the idealised rational value.
-/

namespace Mediawarn

attribute [local semireducible] Rat.mul Rat.inv Rat.add Rat.sub Rat.ofScientific

/-- Round a rational to the nearest integer, ties to even
(the rounding mode of Python's built-in `round`). -/
def roundHalfEven (q : ℚ) : ℤ :=
  let f := ⌊q⌋
  if q - f < 1 / 2 then f
  else if q - f > 1 / 2 then f + 1
  else if f % 2 = 0 then f else f + 1

/-- Python's `round(x, 3)`: round to three decimal places, ties to even. -/
def round3 (q : ℚ) : ℚ := (roundHalfEven (q * 1000) : ℚ) / 1000

/-! ## Aggregator data model (`models.py`)

`self.categories[name]` holds `threshold` and `severity_mapping`; the
`severity_mapping` JSON may omit any of the three band keys, which
`_score_to_severity` fills with `.get(..., default)` — hence `Option ℚ`
fields here. -/

/-- One entry of `ModelManager.categories`: the per-category
configuration loaded from `model_categories`. -/
structure CatCfg where
  threshold : ℚ
  mild : Option ℚ
  moderate : Option ℚ
  severe : Option ℚ
  deriving DecidableEq

/-- The per-model metadata stored in `ModelManager.models`:
`name`, `categories`, `weight`, and the two `model_config` entries the
analysis path reads (`threshold` and `label_mappings`). -/
structure ModelInfo where
  name : String
  categories : List String
  weight : ℚ
  cfgThreshold : Option ℚ
  cfgLabelMappings : List (String × List String)
  deriving DecidableEq

/-- One prediction of a classification pipeline: `{label, score}`. -/
structure Pred where
  label : String
  score : ℚ
  deriving DecidableEq

/-- The trigger dict built by `_run_model_analysis`. -/
structure Trig where
  category : String
  severity : String
  score : ℚ
  confidence : ℚ
  model_name : String
  model_label : String
  text : String
  deriving DecidableEq

/-- Python's `str.upper()` on the ASCII label strings the models emit:
upper-case each character. -/
def upper (s : String) : String := ⟨s.data.map Char.toUpper⟩

/-- The severity rank table of `_combine_results`
(`severities.get(x, 0)`: unknown strings rank 0). -/
def sevRank (s : String) : Nat :=
  (List.lookup s [("none", 0), ("mild", 1), ("moderate", 2), ("severe", 3)]).getD 0

/-- `_score_to_severity(score, category)`: band thresholds compared
highest-first, with defaults `severe 0.8`, `moderate 0.6`, `mild 0.3`;
a category absent from `self.categories` uses the fallback bands. -/
def score_to_severity (cats : List (String × CatCfg)) (score : ℚ) (category : String) :
    String :=
  match List.lookup category cats with
  | none =>
    if score ≤ 3 / 10 then "mild"
    else if score ≤ 6 / 10 then "moderate"
    else "severe"
  | some cfg =>
    if score ≥ cfg.severe.getD (8 / 10) then "severe"
    else if score ≥ cfg.moderate.getD (6 / 10) then "moderate"
    else if score ≥ cfg.mild.getD (3 / 10) then "mild"
    else "none"

/-- The fixed base table of `_map_label_to_categories`; `NEGATIVE` maps to
the model's own configured categories, `POSITIVE` to nothing. -/
def base_label_mappings (modelCategories : List String) :
    List (String × List String) :=
  [("TOXIC", ["hate_speech", "violence"]),
   ("SEVERE_TOXIC", ["hate_speech", "violence"]),
   ("OBSCENE", ["hate_speech"]),
   ("THREAT", ["violence"]),
   ("INSULT", ["hate_speech"]),
   ("TOXICITY", ["hate_speech", "violence"]),
   ("NSFW", ["sexual_assault"]),
   ("NEGATIVE", modelCategories),
   ("POSITIVE", [])]

/-- `_map_label_to_categories(label, model_categories, config)`: the base
table updated by `config['label_mappings']` (a config entry shadows the
base entry), then looked up with default `[]`. -/
def map_label_to_categories (label : String) (modelCategories : List String)
    (cfgLabelMappings : List (String × List String)) : List String :=
  match List.lookup label cfgLabelMappings with
  | some cats => cats
  | none => (List.lookup label (base_label_mappings modelCategories)).getD []

/-- `_run_model_analysis`: for each prediction, upper-case the label, map
it to categories, and for each mapped category known to `self.categories`
apply the model weight and the (possibly config-overridden) threshold;
passing detections are appended with severity, rounded score and rounded
confidence. -/
def run_model_analysis (cats : List (String × CatCfg)) (mi : ModelInfo)
    (preds : List Pred) (originalText : String) : List Trig :=
  preds.flatMap fun pred =>
    let label := upper pred.label
    (map_label_to_categories label mi.categories mi.cfgLabelMappings).filterMap
      fun category =>
        match List.lookup category cats with
        | none => none
        | some cfg =>
          let adjusted_score := pred.score * mi.weight
          let threshold := mi.cfgThreshold.getD cfg.threshold
          if adjusted_score ≥ threshold then
            some
              { category := category
                severity := score_to_severity cats adjusted_score category
                score := round3 adjusted_score
                confidence := round3 (min adjusted_score 1)
                model_name := mi.name
                model_label := label
                text := originalText }
          else none

/-- The merge body of `_combine_results` for one existing/new pair of the
same category: the weighted average and max confidence are computed, but
the stored entry is updated only when the new severity ranks strictly
higher, in which case severity, rounded score, rounded confidence and the
joined model name are written back. -/
def merge_pair (existing result : Trig) : Trig :=
  let new_score := (existing.score * 1 + result.score * 1) / (1 + 1)
  let new_confidence := max existing.confidence result.confidence
  if sevRank result.severity > sevRank existing.severity then
    { existing with
        severity := result.severity
        score := round3 new_score
        confidence := round3 new_confidence
        model_name := existing.model_name ++ ", " ++ result.model_name }
  else existing

/-- One step of the `combined` dict of `_combine_results`: a category not
yet present is inserted (at the end, Python dicts preserve insertion
order); an existing entry is merged in place via `merge_pair`. -/
def combine_step : List Trig → Trig → List Trig
  | [], r => [r]
  | t :: ts, r =>
    if t.category = r.category then merge_pair t r :: ts
    else t :: combine_step ts r

/-- `_combine_results(results)`: fold all raw detections into the
per-category dict and return its values. -/
def combine_results (results : List Trig) : List Trig :=
  results.foldl combine_step []

/-- `analyze_text(text, context_before, context_after)`. The inference
pipelines are external: each loaded model comes paired with the outcome of
`pipeline(full_text)` — either its prediction list or an exception, which
the `try/except` around `_run_model_analysis` turns into an omitted
contribution. An empty model dict short-circuits to `[]`. -/
def analyze_text (cats : List (String × CatCfg))
    (models : List (ModelInfo × Except Unit (List Pred)))
    (text context_before context_after : String) : List Trig :=
  if models.isEmpty then []
  else
    let results := models.flatMap fun m =>
      match m.2 with
      | Except.ok preds => run_model_analysis cats m.1 preds text
      | Except.error _ => []
    combine_results results

/-! ## Orchestrator data model (`worker.py`)

The relational store is modelled transactionally: a `Session` holds the
committed database plus a list of pending operations; `execute` buffers
an operation (or raises, per the failure schedule `fail`), `commit`
applies all pending operations, `rollback` discards them.  `RETURNING id`
on the scan-result insert is modelled by assigning the next sequential
id.  Exceptions are modelled by `Except`: a callee that catches its own
exceptions (as `update_file_status` and `store_scan_results` both do in
the source) is a total function on sessions. -/

/-- One subtitle entry dict produced by `subtitle_parser`
(`number`, `start_time`, `end_time`, `text`). -/
structure Entry where
  number : Nat
  start_time : String
  end_time : String
  text : String
  deriving DecidableEq

/-- A trigger dict after `process_job` attached the per-segment fields
(`trigger.update({...})`). -/
structure WTrig extends Trig where
  timestamp_start : String
  timestamp_end : String
  subtitle_text : String
  context_before : String
  context_after : String
  deriving DecidableEq

/-- One `scan_results` row. -/
structure ScanRow where
  file_id : Nat
  processing_time_ms : Nat
  overall_risk_score : ℚ
  highest_severity : String
  total_triggers : Nat
  deriving DecidableEq

/-- One `triggers` row. -/
structure TriggerRow where
  scan_result_id : Nat
  category : String
  severity : String
  confidence_score : ℚ
  timestamp_start : String
  timestamp_end : String
  subtitle_text : String
  context_before : String
  context_after : String
  deriving DecidableEq

/-- The write operations `process_job` issues against the store. -/
inductive DbOp where
  | setStatus (path status : String)
  | insertScan (id : Nat) (row : ScanRow)
  | insertTrigger (row : TriggerRow)
  deriving DecidableEq

/-- The committed database: `files` rows `(id, path, scan_status)`,
`scan_results` rows `(id, row)`, and `triggers` rows. -/
structure DB where
  files : List (Nat × String × String)
  scan_results : List (Nat × ScanRow)
  trigger_rows : List TriggerRow
  deriving DecidableEq

/-- A SQLAlchemy session: committed state plus uncommitted buffered
writes. -/
structure Session where
  committed : DB
  pending : List DbOp
  deriving DecidableEq

/-- Apply one write to the database. -/
def applyOp (db : DB) : DbOp → DB
  | .setStatus path status =>
    { db with
        files := db.files.map fun f =>
          if f.2.1 = path then (f.1, path, status) else f }
  | .insertScan i row => { db with scan_results := db.scan_results ++ [(i, row)] }
  | .insertTrigger row => { db with trigger_rows := db.trigger_rows ++ [row] }

/-- Apply a list of writes in order. -/
def applyOps (db : DB) (ops : List DbOp) : DB := ops.foldl applyOp db

/-- The state a query inside the transaction sees: committed plus
pending. -/
def viewS (s : Session) : DB := applyOps s.committed s.pending

/-- `session.commit()`. -/
def commitS (s : Session) : Session := ⟨viewS s, []⟩

/-- `session.rollback()`. -/
def rollbackS (s : Session) : Session := ⟨s.committed, []⟩

/-- `session.execute(op)` under the failure schedule `fail`: raises if
`fail op`, otherwise buffers the write. -/
def execute (fail : DbOp → Bool) (s : Session) (op : DbOp) : Except Unit Session :=
  if fail op then Except.error () else Except.ok { s with pending := s.pending ++ [op] }

/-- Execute a list of writes sequentially, stopping at the first
failure. -/
def executeAll (fail : DbOp → Bool) : Session → List DbOp → Except Unit Session
  | s, [] => Except.ok s
  | s, op :: ops =>
    match execute fail s op with
    | Except.ok s1 => executeAll fail s1 ops
    | Except.error e => Except.error e

/-- `update_file_status(file_path, status)`: execute the UPDATE and
commit; on any exception, roll back — the exception is caught and not
re-raised. -/
def update_file_status (fail : DbOp → Bool) (s : Session) (path status : String) :
    Session :=
  match execute fail s (DbOp.setStatus path status) with
  | Except.ok s1 => commitS s1
  | Except.error _ => rollbackS s

/-- `SELECT id FROM files WHERE path = :path` (first match). -/
def findFileId (files : List (Nat × String × String)) (path : String) : Option Nat :=
  (files.find? fun f => f.2.1 = path).map (·.1)

/-- The `triggers` row inserted for one attached trigger. -/
def triggerRowOf (sid : Nat) (t : WTrig) : TriggerRow :=
  ⟨sid, t.category, t.severity, t.confidence, t.timestamp_start, t.timestamp_end,
   t.subtitle_text, t.context_before, t.context_after⟩

/-- The writes `store_scan_results` issues: the scan-result insert
(`RETURNING id` modelled as the next sequential id) followed by one
trigger insert per attached trigger; empty when the file path is not in
`files` (the source then logs and returns without writing). -/
def result_ops (db : DB) (path : String) (triggers : List WTrig)
    (risk : ℚ) (sev : String) (ptime : Nat) : List DbOp :=
  match findFileId db.files path with
  | none => []
  | some fid =>
    let sid := db.scan_results.length + 1
    DbOp.insertScan sid ⟨fid, ptime, risk, sev, triggers.length⟩
      :: triggers.map fun t => DbOp.insertTrigger (triggerRowOf sid t)

/-- `store_scan_results`: look up the file id, issue all inserts and
commit; **any exception is caught, rolled back and swallowed** — the
function returns normally either way. -/
def store_scan_results (fail : DbOp → Bool) (s : Session) (path : String)
    (triggers : List WTrig) (ptime : Nat) (risk : ℚ) (sev : String) : Session :=
  match findFileId (viewS s).files path with
  | none => s
  | some _ =>
    match executeAll fail s (result_ops (viewS s) path triggers risk sev ptime) with
    | Except.ok s1 => commitS s1
    | Except.error _ => rollbackS s

/-- `context_before` for segment `i`: previous entry's text, `""` if
first. -/
def ctx_before (entries : List Entry) (i : Nat) : String :=
  if i > 0 then ((entries.get? (i - 1)).map Entry.text).getD "" else ""

/-- `context_after` for segment `i`: next entry's text, `""` if last. -/
def ctx_after (entries : List Entry) (i : Nat) : String :=
  if i < entries.length - 1 then ((entries.get? (i + 1)).map Entry.text).getD ""
  else ""

/-- `trigger.update({...})`: attach the segment's timestamps, text and
context to an analyzer trigger. -/
def attachTrig (entry : Entry) (cb ca : String) (t : Trig) : WTrig :=
  ⟨t, entry.start_time, entry.end_time, entry.text, cb, ca⟩

/-- The `all_triggers` accumulation loop of `process_job`: for each entry
(in order), analyze it with its context and attach the segment fields to
every resulting trigger.  `infer i` supplies the loaded models with their
inference outcomes for segment `i` (inference is external). -/
def job_triggers (cats : List (String × CatCfg))
    (infer : Nat → List (ModelInfo × Except Unit (List Pred)))
    (entries : List Entry) : List WTrig :=
  entries.enum.flatMap fun p =>
    let cb := ctx_before entries p.1
    let ca := ctx_after entries p.1
    (analyze_text cats (infer p.1) p.2.text cb ca).map (attachTrig p.2 cb ca)

/-- The whole-file summary computation of `process_job` (lines 119–132):
`overall_risk_score` is the confidence-weighted average of trigger scores
(`0` when the total confidence is `0`), `highest_severity` the first
severity name whose rank equals the maximum rank present.  (The source
indexes `severity_levels[t["severity"]]` directly; the pipeline only
produces the four known names, for which `sevRank` agrees.) -/
def compute_summary (all_triggers : List WTrig) : ℚ × String :=
  if all_triggers.isEmpty then (0, "none")
  else
    let total_score := (all_triggers.map fun t => t.score * t.confidence).sum
    let total_weight := (all_triggers.map fun t => t.confidence).sum
    let overall_risk_score := if total_weight > 0 then total_score / total_weight else 0
    let max_severity_level := (all_triggers.map fun t => sevRank t.severity).foldl max 0
    let highest_severity :=
      ((([("none", 0), ("mild", 1), ("moderate", 2), ("severe", 3)] :
          List (String × Nat)).filter fun p => p.2 = max_severity_level).map
        Prod.fst).headD "none"
    (overall_risk_score, highest_severity)

/-- `process_job(job)` after the subtitle file has been parsed into
`entries`.  The source wraps steps 2–6 in `try/except` that marks the
file `error`; every callee here catches its own exceptions
(`update_file_status`, `store_scan_results`, and `analyze_text`'s
per-model `try/except`), so no exception reaches that handler and the
embedding is the `try` body. -/
def process_job (fail : DbOp → Bool) (s : Session) (path : String)
    (entries : List Entry) (cats : List (String × CatCfg))
    (infer : Nat → List (ModelInfo × Except Unit (List Pred))) (ptime : Nat) :
    Session :=
  let s1 := update_file_status fail s path "processing"
  if entries.isEmpty then update_file_status fail s1 path "completed"
  else
    let all_triggers := job_triggers cats infer entries
    let summary := compute_summary all_triggers
    let s2 := store_scan_results fail s1 path all_triggers ptime summary.1 summary.2
    update_file_status fail s2 path "completed"

/-- The scan status recorded for `path` (first matching `files` row). -/
def fileStatus (db : DB) (path : String) : Option String :=
  (db.files.find? fun f => f.2.1 = path).map (·.2.2)

/-! ## Segmenter (`subtitle_parser.py`)

`parse_srt_content` runs `re.findall` (DOTALL) with the pattern
`(\d+)\s*\n(T)\s*-->\s*(T)\s*\n(.*?)(?=\n\s*\n|\n\s*\d+\s*\n|\Z)` where
`T = \d{2}:\d{2}:\d{2},\d{3}`.  The scanner below realises that exact
pattern deterministically on character lists:

* greedy `\d+`/`\s*` between disjoint character classes admit exactly
  one viable split (backtracking into them puts a wrong character class
  where the next token must match), so maximal munch is faithful;
* `\s*\n` followed by a digit token forces the whitespace run to end in
  its last `\n`; `\s*\n` followed by the lazy group forces the split at
  the run's **last** `\n` (any trailing non-newline whitespace belongs
  to group 4);
* the lazy `(.*?)` stops at the first position where the lookahead
  holds, and the lookahead can only hold at `\Z` or on a `\n`;
* `re.findall` scans left to right, retrying at the next character after
  a failed position and continuing after the end of each match.

`re.sub(r'<[^>]+>', '', text)` matches at a `<` exactly when the next
`>` lies at distance ≥ 2; the replacement scanner mirrors that.
Recursive scanners take explicit fuel (always called with the input
length, which the step lemmas show is sufficient). -/

/-- Python's `\s` on ASCII: space, tab, newline, carriage return,
vertical tab, form feed. -/
def isWsChar (c : Char) : Bool :=
  c = ' ' || c = '\t' || c = '\n' || c = '\r' || c = '\x0b' || c = '\x0c'

/-- The four capture groups of one SRT block match. -/
structure SrtMatch where
  num : List Char
  t1 : List Char
  t2 : List Char
  txt : List Char
  deriving DecidableEq

/-- Match `\d{2}:\d{2}:\d{2},\d{3}` at the head of the input, returning
the twelve matched characters and the rest. -/
def parseTimestamp : List Char → Option (List Char × List Char)
  | a :: b :: c :: d :: e :: f :: g :: h :: i :: j :: k :: l :: rest =>
    if a.isDigit && b.isDigit && c == ':' && d.isDigit && e.isDigit && f == ':' &&
        g.isDigit && h.isDigit && i == ',' && j.isDigit && k.isDigit && l.isDigit then
      some ([a, b, c, d, e, f, g, h, i, j, k, l], rest)
    else none
  | _ => none

/-- The lookahead `(?=\n\s*\n|\n\s*\d+\s*\n|\Z)` at a position: end of
input, or a `\n` whose following whitespace run contains another `\n`,
or a `\n`, whitespace, a nonempty digit run, then whitespace containing
a `\n`. -/
def lookahead : List Char → Bool
  | [] => true
  | c :: rest =>
    if c = '\n' then
      let w := rest.takeWhile isWsChar
      if w.contains '\n' then true
      else
        let r2 := rest.drop w.length
        let d := r2.takeWhile Char.isDigit
        !d.isEmpty && ((r2.drop d.length).takeWhile isWsChar).contains '\n'
    else false

/-- The lazy `(.*?)` before the lookahead: the shortest prefix whose
complement satisfies `lookahead`. -/
def lazyText : List Char → List Char × List Char
  | [] => ([], [])
  | c :: rest =>
    if lookahead (c :: rest) then ([], c :: rest)
    else
      let p := lazyText rest
      (c :: p.1, p.2)

/-- Match the literal `-->` at the head of the input. -/
def stripArrow : List Char → Option (List Char)
  | c1 :: c2 :: c3 :: r =>
    if c1 = '-' ∧ c2 = '-' ∧ c3 = '>' then some r else none
  | _ => none

/-- Try the block pattern at this position; on success return the four
groups and the input after the match end (the lookahead is
zero-width). -/
def matchAt (cs : List Char) : Option (SrtMatch × List Char) :=
  let num := cs.takeWhile Char.isDigit
  if num.isEmpty then none
  else
    let r1 := cs.drop num.length
    let w1 := r1.takeWhile isWsChar
    if w1.getLast? ≠ some '\n' then none
    else
      (parseTimestamp (r1.drop w1.length)).bind fun p1 =>
        (stripArrow (p1.2.dropWhile isWsChar)).bind fun r3 =>
          (parseTimestamp (r3.dropWhile isWsChar)).bind fun p2 =>
            let w2 := p2.2.takeWhile isWsChar
            if w2.contains '\n' then
              let tailWs := (w2.reverse.takeWhile fun c => c != '\n').reverse
              let q := lazyText (tailWs ++ p2.2.drop w2.length)
              some (⟨num, p1.1, p2.1, q.1⟩, q.2)
            else none

/-- `re.findall` driver: try a match at each position, emit its groups
and continue after the match end, else advance one character. -/
def srtScanAux : Nat → List Char → List SrtMatch
  | 0, _ => []
  | _ + 1, [] => []
  | fuel + 1, c :: rest =>
    match matchAt (c :: rest) with
    | some (m, r) => m :: srtScanAux fuel r
    | none => srtScanAux fuel rest

/-- All block matches of the SRT pattern, left to right. -/
def srtScan (cs : List Char) : List SrtMatch := srtScanAux cs.length cs

/-- Split at the first `'>'`: `some (before, after)` when one exists. -/
def splitAtGt : List Char → Option (List Char × List Char)
  | [] => none
  | c :: cs =>
    if c = '>' then some ([], cs)
    else (splitAtGt cs).map fun p => (c :: p.1, p.2)

/-- `re.sub(r'<[^>]+>', '', text)`: at `<`, drop through the next `>`
when at least one non-`>` character lies between; otherwise the `<` is
literal (no match starts there) and scanning resumes at the next
character. -/
def removeTagsAux : Nat → List Char → List Char
  | 0, cs => cs
  | _ + 1, [] => []
  | fuel + 1, c :: rest =>
    if c = '<' then
      match splitAtGt rest with
      | some (mid, after) =>
        if mid.isEmpty then c :: removeTagsAux fuel rest
        else removeTagsAux fuel after
      | none => c :: removeTagsAux fuel rest
    else c :: removeTagsAux fuel rest

/-- Strip HTML-style tags, as `re.sub(r'<[^>]+>', '', text)`. -/
def removeTags (cs : List Char) : List Char := removeTagsAux cs.length cs

/-- Python `str.strip()`: drop whitespace at both ends. -/
def stripChars (cs : List Char) : List Char :=
  ((cs.dropWhile isWsChar).reverse.dropWhile isWsChar).reverse

/-- The text clean-up of `parse_srt_content`: strip tags, collapse
newlines to spaces, trim. -/
def cleanText (cs : List Char) : List Char :=
  stripChars ((removeTags cs).map fun c => if c = '\n' then ' ' else c)

/-- `int(number)` on a digit string. -/
def digitsVal (cs : List Char) : Nat :=
  cs.foldl (fun a c => a * 10 + (c.toNat - 48)) 0

/-- `convert_srt_time_to_seconds`: normalise `HH:MM:SS,mmm` to
`HH:MM:SS.mmm` (replace every comma by a period). -/
def convert_srt_time_to_seconds (time_str : String) : String :=
  ⟨time_str.data.map fun c => if c = ',' then '.' else c⟩

/-- `parse_srt_content(content)`: run the pattern, clean each block's
text, drop blocks whose cleaned text is empty, keep the block's own
number and its normalised timestamps. -/
def parse_srt_content (content : String) : List Entry :=
  (srtScan content.data).filterMap fun m =>
    let text := cleanText m.txt
    if text.isEmpty then none
    else
      some ⟨digitsVal m.num, convert_srt_time_to_seconds ⟨m.t1⟩,
        convert_srt_time_to_seconds ⟨m.t2⟩, ⟨text⟩⟩

/-- A `<`-tag match of `re.sub(r'<[^>]+>', '', _)` starts here: a `<`
whose next `>` lies at distance ≥ 2. -/
def startsTag : List Char → Bool
  | [] => false
  | c :: rest =>
    if c = '<' then
      match splitAtGt rest with
      | some (mid, _) => !mid.isEmpty
      | none => false
    else false

/-- Some suffix carries a complete markup tag `<...>`. -/
def hasTag : List Char → Bool
  | [] => false
  | c :: rest => startsTag (c :: rest) || hasTag rest

/-! ### Structured well-formed SRT inputs and their rendering -/

/-- A timecode `HH:MM:SS,mmm` as numbers. -/
structure Tc where
  hh : Nat
  mm : Nat
  ss : Nat
  ms : Nat
  deriving DecidableEq

/-- The decimal digit character for `n ≤ 9`. -/
def digitChar (n : Nat) : Char := Char.ofNat (48 + n)

/-- Render a timecode with the given decimal separator. -/
def tcChars (sep : Char) (t : Tc) : List Char :=
  [digitChar (t.hh / 10), digitChar (t.hh % 10), ':',
   digitChar (t.mm / 10), digitChar (t.mm % 10), ':',
   digitChar (t.ss / 10), digitChar (t.ss % 10), sep,
   digitChar (t.ms / 100), digitChar (t.ms / 10 % 10), digitChar (t.ms % 10)]

/-- A timecode's value in milliseconds. -/
def tcVal (t : Tc) : Nat := ((t.hh * 60 + t.mm) * 60 + t.ss) * 1000 + t.ms

/-- The value of a rendered `HH:MM:SS?mmm` string in milliseconds
(any single separator character before the millisecond field). -/
def timeValChars : List Char → Nat
  | [h1, h2, _, m1, m2, _, s1, s2, _, x1, x2, x3] =>
    ((((h1.toNat - 48) * 10 + (h2.toNat - 48)) * 60 +
        ((m1.toNat - 48) * 10 + (m2.toNat - 48))) * 60 +
      ((s1.toNat - 48) * 10 + (s2.toNat - 48))) * 1000 +
      ((x1.toNat - 48) * 100 + (x2.toNat - 48) * 10 + (x3.toNat - 48))
  | _ => 0

/-- One source SRT block: an index line, two timecodes, one text line. -/
structure Block where
  num : List Char
  tstart : Tc
  tstop : Tc
  txt : List Char
  deriving DecidableEq

/-- Render one block in canonical SRT form, terminated by a blank
line. -/
def renderBlock (b : Block) : List Char :=
  b.num ++ '\n' :: tcChars ',' b.tstart ++ ' ' :: '-' :: '-' :: '>' :: ' ' ::
    tcChars ',' b.tstop ++ '\n' :: b.txt ++ ['\n', '\n']

/-- Render a whole SRT file. -/
def renderSrt (bs : List Block) : List Char := (bs.map renderBlock).flatten

/-- Timecode field bounds. -/
def WFtc (t : Tc) : Prop := t.hh ≤ 99 ∧ t.mm ≤ 99 ∧ t.ss ≤ 99 ∧ t.ms ≤ 999

/-- A well-formed block: a nonempty digit index, in-range timecodes with
`start ≤ end`, and a nonempty single-line text that is not all
whitespace (its cleaned text may still be empty, e.g. only markup). -/
def WFblock (b : Block) : Prop :=
  b.num ≠ [] ∧ (∀ c ∈ b.num, c.isDigit = true) ∧
  WFtc b.tstart ∧ WFtc b.tstop ∧ tcVal b.tstart ≤ tcVal b.tstop ∧
  b.txt ≠ [] ∧ '\n' ∉ b.txt ∧ (∃ c ∈ b.txt, isWsChar c = false)

/-- A well-formed SRT source: well-formed blocks with strictly
increasing index values. -/
def WFsrt (bs : List Block) : Prop :=
  (∀ b ∈ bs, WFblock b) ∧ (bs.map fun b => digitsVal b.num).Pairwise (· < ·)

/-- The segment a block contributes after cleaning (`none` when its
cleaned text is empty and the block is dropped). -/
def cleanBlock (b : Block) : Option Entry :=
  let text := cleanText b.txt
  if text.isEmpty then none
  else
    some ⟨digitsVal b.num, ⟨tcChars '.' b.tstart⟩, ⟨tcChars '.' b.tstop⟩, ⟨text⟩⟩

instance (t : Tc) : Decidable (WFtc t) := by
  unfold WFtc; infer_instance

instance (b : Block) : Decidable (WFblock b) := by
  unfold WFblock; infer_instance

instance (bs : List Block) : Decidable (WFsrt bs) := by
  unfold WFsrt; infer_instance

/-- Source block `1`, `00:00:01,000 --> 00:00:02,000`, text
`<b></b>` (cleans to empty). -/
def wb1 : Block := ⟨['1'], ⟨0, 0, 1, 0⟩, ⟨0, 0, 2, 0⟩, "<b></b>".data⟩

/-- Source block `2`, `00:00:03,000 --> 00:00:04,000`, text `Hi`. -/
def wb2 : Block := ⟨['2'], ⟨0, 0, 3, 0⟩, ⟨0, 0, 4, 0⟩, "Hi".data⟩

/-- The four severity strings `_score_to_severity` can produce. -/
def validSev (s : String) : Prop :=
  s ∈ (["none", "mild", "moderate", "severe"] : List String)

instance (s : String) : Decidable (validSev s) := by
  unfold validSev; infer_instance

/-!
## C1 — merging two same-category detections

`_combine_results` computes the equal-weight average and the max
confidence unconditionally, but writes them back **only** when the new
detection's severity ranks strictly above the stored one; otherwise the
stored trigger is returned untouched.  The merge is therefore **not**
order-independent: processing the `0.7` (moderate) detection first and
the `0.4` (mild) one second leaves the score at `0.7`, not `0.55`.
-/

/-- The `violence` detection with adjusted score `0.4` (mild band). -/
def d04 : Trig := ⟨"violence", "mild", 4/10, 4/10, "m1", "TOXIC", "t"⟩

/-- The `violence` detection with adjusted score `0.7` (moderate band). -/
def d07 : Trig := ⟨"violence", "moderate", 7/10, 7/10, "m2", "TOXIC", "t"⟩

/-- Merge-fold input with score `0`, severity `mild`. -/
def e0m : Trig := ⟨"violence", "mild", 0, 0, "a", "L", "t"⟩

/-- Merge-fold input with score `0`, severity `moderate`. -/
def e0d : Trig := ⟨"violence", "moderate", 0, 0, "b", "L", "t"⟩

/-- Merge-fold input with score `1`, severity `severe`. -/
def e1s : Trig := ⟨"violence", "severe", 1, 1, "c", "L", "t"⟩

/-- Category table whose `hate_speech` threshold (`0.1`) lies below the
default mild band (`0.3`); bands defaulted. -/
def catsLow : List (String × CatCfg) := [("hate_speech", ⟨1/10, none, none, none⟩)]

/-- Category table with `hate_speech` at threshold `0.5`, bands defaulted. -/
def catsHS : List (String × CatCfg) := [("hate_speech", ⟨1/2, none, none, none⟩)]

/-- A weight-`1` toxicity model configured for `hate_speech`, with no
per-model config overrides. -/
def miTox : ModelInfo := ⟨"m", ["hate_speech"], 1, none, []⟩

/-- One loaded model whose pipeline returned `TOXIC` at score `0.2`. -/
def modelsTox02 : List (ModelInfo × Except Unit (List Pred)) :=
  [(miTox, Except.ok [⟨"TOXIC", 1/5⟩])]

/-- One loaded model whose pipeline returned `TOXIC` at score `0.9`. -/
def modelsTox09 : List (ModelInfo × Except Unit (List Pred)) :=
  [(miTox, Except.ok [⟨"TOXIC", 9/10⟩])]

/-- The trigger `analyze_text catsHS modelsTox09 "t" "" ""` emits. -/
def gTox : Trig := ⟨"hate_speech", "severe", 9/10, 9/10, "m", "TOXIC", "t"⟩

/-- A weight-`2` toxicity model (weights above `1` are not excluded by
the model registry). -/
def miTox2 : ModelInfo := ⟨"m2", ["hate_speech"], 2, none, []⟩

/-- The weight-`2` model with a `TOXIC 0.9` prediction. -/
def modelsTox2 : List (ModelInfo × Except Unit (List Pred)) :=
  [(miTox2, Except.ok [⟨"TOXIC", 9/10⟩])]

/-- Category table with `hate_speech` threshold `0` (thresholds in
`[0,1]` per the configuration contract). -/
def catsZero : List (String × CatCfg) := [("hate_speech", ⟨0, none, none, none⟩)]

/-- A weight-`1` model with a tiny `TOXIC 0.0004` prediction, whose
rounded score and confidence are both `0`. -/
def modelsTiny : List (ModelInfo × Except Unit (List Pred)) :=
  [(miTox, Except.ok [⟨"TOXIC", 1/2500⟩])]

/-- A one-file database: file id `1` at path `f.srt`, status `pending`. -/
def db0 : DB := ⟨[(1, "f.srt", "pending")], [], []⟩

/-- A fresh session over `db0`. -/
def s0 : Session := ⟨db0, []⟩

/-- A parsed subtitle entry. -/
def entry1 : Entry := ⟨1, "00:00:01.000", "00:00:02.000", "bad stuff"⟩

/-- Inference outcomes: every segment sees the `TOXIC 0.9` model. -/
def inferTox : Nat → List (ModelInfo × Except Unit (List Pred)) := fun _ => modelsTox09

/-- Failure schedule: no write fails. -/
def noFail : DbOp → Bool := fun _ => false

/-- Failure schedule: trigger-row inserts fail. -/
def failTrig : DbOp → Bool := fun op =>
  match op with
  | DbOp.insertTrigger _ => true
  | _ => false

/-- Failure schedule: the scan-result insert fails. -/
def failScan : DbOp → Bool := fun op =>
  match op with
  | DbOp.insertScan _ _ => true
  | _ => false

/-- C1 (counterexample): the same two `violence` detections with adjusted
scores `0.4` (mild) and `0.7` (moderate) merge to score `0.55` in one
processing order but to score `0.7` in the other, so the claimed
order-independent result (`0.55`) is false. -/
theorem C1_counterexample :
    (combine_results [d04, d07]).map Trig.score = [11/20] ∧
    (combine_results [d07, d04]).map Trig.score = [7/10] ∧
    ((7 : ℚ)/10) ≠ 11/20 := by
  refine ⟨by decide, by decide, by decide⟩

/-- C1 (amended): two raw detections for the same category always merge
into a single trigger whose severity is the more severe of the two; the
equal-weight average score and the max confidence are applied only when
the second-processed detection is strictly more severe than the first,
and otherwise the first trigger is returned unchanged. -/
theorem C1_merge_behavior (a b : Trig) (h : a.category = b.category) :
    combine_results [a, b] = [merge_pair a b] ∧
    sevRank (merge_pair a b).severity = max (sevRank a.severity) (sevRank b.severity) ∧
    (sevRank b.severity > sevRank a.severity →
      (merge_pair a b).severity = b.severity ∧
      (merge_pair a b).score = round3 ((a.score + b.score) / 2) ∧
      (merge_pair a b).confidence = round3 (max a.confidence b.confidence)) ∧
    (¬ sevRank b.severity > sevRank a.severity → merge_pair a b = a) := by
  refine ⟨?_, ?_, ?_, ?_⟩
  · simp [combine_results, combine_step, h]
  · by_cases hlt : sevRank b.severity > sevRank a.severity <;>
      simp [merge_pair, hlt] <;> omega
  · intro hlt
    refine ⟨?_, ?_, ?_⟩ <;> simp [merge_pair, hlt]
    norm_num
  · intro hlt
    simp [merge_pair, hlt]

/-- C1 (witness): the amended merge behaviour at the spec's own scenario,
detections `0.4` (mild) then `0.7` (moderate) for `violence`. -/
theorem C1_merge_behavior_witness :
    d04.category = d07.category ∧
    (combine_results [d04, d07] = [merge_pair d04 d07] ∧
     sevRank (merge_pair d04 d07).severity
       = max (sevRank d04.severity) (sevRank d07.severity) ∧
     (sevRank d07.severity > sevRank d04.severity →
       (merge_pair d04 d07).severity = d07.severity ∧
       (merge_pair d04 d07).score = round3 ((d04.score + d07.score) / 2) ∧
       (merge_pair d04 d07).confidence
         = round3 (max d04.confidence d07.confidence)) ∧
     (¬ sevRank d07.severity > sevRank d04.severity → merge_pair d04 d07 = d04)) :=
  ⟨rfl, C1_merge_behavior d04 d07 rfl⟩

/-!
## C7 — algebraic properties of the binary merge

The resulting severity is the rank-max of the two inputs and hence
commutative.  The merged score is **not** associative, even without any
floating-point error: pairwise equal-weight averaging depends on the
grouping (`avg(avg(x,y),z) ≠ avg(x,avg(y,z))` in exact arithmetic).
-/

/-- C7 (counterexample): folding three same-category detections with
scores `0`, `0`, `1` gives merged score `0.5` when grouped to the left
and `0.25` when grouped to the right — a difference of `0.25`, far
outside any floating-point tolerance (shown: more than `1/1000`, the
resolution the scores are rounded to). -/
theorem C7_counterexample :
    (merge_pair (merge_pair e0m e0d) e1s).score = 1/2 ∧
    (merge_pair e0m (merge_pair e0d e1s)).score = 1/4 ∧
    ¬ |(merge_pair (merge_pair e0m e0d) e1s).score
        - (merge_pair e0m (merge_pair e0d e1s)).score| ≤ 1/1000 := by
  refine ⟨by decide, by decide, by decide⟩

/-- C7 (amended): the binary merge is commutative in the resulting
severity — for the severity strings the pipeline produces, both orders
yield the same severity, whose rank is the max of the two input ranks.
(The merged score is *not* associative; see the counterexample.) -/
theorem C7_severity_commutative (a b : Trig)
    (ha : validSev a.severity) (hb : validSev b.severity) :
    (merge_pair a b).severity = (merge_pair b a).severity ∧
    sevRank (merge_pair a b).severity = max (sevRank a.severity) (sevRank b.severity) := by
  unfold validSev at ha hb
  simp only [List.mem_cons, List.not_mem_nil, or_false] at ha hb
  constructor
  · rcases ha with ha | ha | ha | ha <;> rcases hb with hb | hb | hb | hb <;>
      simp [merge_pair, sevRank, ha, hb, List.lookup, apply_ite]
  · by_cases hlt : sevRank b.severity > sevRank a.severity <;>
      simp [merge_pair, hlt] <;> omega

/-- C7 (witness): severity commutativity at the `0.4`-mild / `0.7`-severe
pair of detections. -/
theorem C7_severity_commutative_witness :
    validSev e0m.severity ∧ validSev e1s.severity ∧
    ((merge_pair e0m e1s).severity = (merge_pair e1s e0m).severity ∧
     sevRank (merge_pair e0m e1s).severity
       = max (sevRank e0m.severity) (sevRank e1s.severity)) :=
  ⟨by decide, by decide, C7_severity_commutative e0m e1s (by decide) (by decide)⟩

/-! ## Helper lemmas about `_combine_results` and `_run_model_analysis` -/

theorem lookup_mem {α β : Type} [BEq α] [LawfulBEq α] {a : α} {b : β}
    {l : List (α × β)} (h : List.lookup a l = some b) : (a, b) ∈ l := by
  induction l with
  | nil => simp [List.lookup] at h
  | cons p l ih =>
    obtain ⟨k, v⟩ := p
    by_cases hk : (a == k) = true
    · have hak : a = k := eq_of_beq hk
      subst hak
      simp [List.lookup] at h
      simp [h]
    · rw [Bool.not_eq_true] at hk
      simp only [List.lookup, hk] at h
      exact List.mem_cons_of_mem _ (ih h)

theorem combine_step_pres (P : Trig → Prop)
    (hmerge : ∀ a b, P a → P b → P (merge_pair a b)) :
    ∀ (acc : List Trig) (r : Trig), (∀ t ∈ acc, P t) → P r →
      ∀ g ∈ combine_step acc r, P g := by
  intro acc
  induction acc with
  | nil =>
    intro r _ hr g hg
    simp [combine_step] at hg
    exact hg ▸ hr
  | cons t ts ih =>
    intro r hacc hr g hg
    rw [combine_step] at hg
    split at hg
    · rcases List.mem_cons.mp hg with hg | hg
      · exact hg ▸ hmerge _ _ (hacc t (by simp)) hr
      · exact hacc g (List.mem_cons_of_mem _ hg)
    · rcases List.mem_cons.mp hg with hg | hg
      · exact hg ▸ hacc t (by simp)
      · exact ih r (fun u hu => hacc u (List.mem_cons_of_mem _ hu)) hr g hg

theorem combine_results_pres (P : Trig → Prop)
    (hmerge : ∀ a b, P a → P b → P (merge_pair a b)) :
    ∀ (results acc : List Trig), (∀ t ∈ acc, P t) → (∀ r ∈ results, P r) →
      ∀ g ∈ results.foldl combine_step acc, P g := by
  intro results
  induction results with
  | nil => intro acc hacc _ g hg; exact hacc g hg
  | cons r rs ih =>
    intro acc hacc hrs g hg
    rw [List.foldl_cons] at hg
    exact ih _ (combine_step_pres P hmerge acc r hacc (hrs r (by simp)))
      (fun u hu => hrs u (List.mem_cons_of_mem _ hu)) g hg

/-- Membership characterization for `_run_model_analysis`: every emitted
trigger comes from a prediction whose mapped category is configured and
whose adjusted score passes the effective threshold. -/
theorem mem_run_model_analysis {cats : List (String × CatCfg)} {mi : ModelInfo}
    {preds : List Pred} {txt : String} {g : Trig}
    (hg : g ∈ run_model_analysis cats mi preds txt) :
    ∃ pred ∈ preds, ∃ category cfg,
      List.lookup category cats = some cfg ∧
      pred.score * mi.weight ≥ mi.cfgThreshold.getD cfg.threshold ∧
      g = { category := category,
            severity := score_to_severity cats (pred.score * mi.weight) category,
            score := round3 (pred.score * mi.weight),
            confidence := round3 (min (pred.score * mi.weight) 1),
            model_name := mi.name, model_label := upper pred.label,
            text := txt } := by
  simp only [run_model_analysis, List.mem_flatMap, List.mem_filterMap] at hg
  obtain ⟨pred, hpred, category, hcat, hf⟩ := hg
  refine ⟨pred, hpred, category, ?_⟩
  rcases hlk : List.lookup category cats with _ | cfg
  · rw [hlk] at hf
    simp at hf
  · rw [hlk] at hf
    dsimp only at hf
    by_cases hth : pred.score * mi.weight ≥ mi.cfgThreshold.getD cfg.threshold
    · rw [if_pos hth] at hf
      exact ⟨cfg, rfl, hth, (Option.some.inj hf).symm⟩
    · rw [if_neg hth] at hf
      cases hf

/-!
## C4 — detections resolving to severity `none`

`_run_model_analysis` appends every detection whose adjusted score passes
the threshold, with **no** check on the resulting severity: when the
category threshold lies below the mild band, a passing detection whose
score is under the mild band is emitted with severity `"none"` rather
than dropped.  Only when every threshold is at least its category's mild
band is the output severity always in `{mild, moderate, severe}`.
-/

/-- C4 (counterexample): with `hate_speech` threshold `0.1` and default
bands, a `TOXIC` prediction of `0.2` passes the threshold, resolves to
severity `"none"` under the bands, and is **still emitted** by
`analyze_text` — refuting the claim that such detections are dropped. -/
theorem C4_counterexample :
    (analyze_text catsLow modelsTox02 "t" "" "").map Trig.severity = ["none"] ∧
    ¬ ∀ g ∈ analyze_text catsLow modelsTox02 "t" "" "",
        g.severity ∈ (["mild", "moderate", "severe"] : List String) := by
  refine ⟨by decide, by decide⟩

/-- C4 (amended): severity-`none` detections are kept, not dropped; but
whenever no model overrides the threshold and every configured category's
threshold is at least its mild band, every trigger emitted by
`analyze_text` has severity in `{mild, moderate, severe}`. -/
theorem C4_severity_in_bands (cats : List (String × CatCfg))
    (models : List (ModelInfo × Except Unit (List Pred))) (t b a : String)
    (hover : ∀ m ∈ models, (m.1).cfgThreshold = none)
    (hth : ∀ p ∈ cats, (p.2).mild.getD (3/10) ≤ (p.2).threshold) :
    ∀ g ∈ analyze_text cats models t b a,
      g.severity ∈ (["mild", "moderate", "severe"] : List String) := by
  intro g hg
  rw [analyze_text] at hg
  split at hg
  · cases hg
  · refine combine_results_pres (fun u => u.severity ∈ (["mild", "moderate", "severe"] : List String))
      (fun x y hx hy => ?_) _ [] (by simp) (fun r hr => ?_) g hg
    · unfold merge_pair
      split
      · simpa using hy
      · exact hx
    · rw [List.mem_flatMap] at hr
      obtain ⟨m, hm, hrm⟩ := hr
      rcases hmo : m.2 with e | preds
      · rw [hmo] at hrm; cases hrm
      · rw [hmo] at hrm
        obtain ⟨pred, _, category, cfg, hlk, hge, hre⟩ := mem_run_model_analysis hrm
        have hcfg : (category, cfg) ∈ cats := lookup_mem hlk
        have hnone : (m.1).cfgThreshold = none := hover m hm
        rw [hnone] at hge
        have hmild : cfg.mild.getD (3/10) ≤ pred.score * m.1.weight :=
          le_trans (hth _ hcfg) hge
        subst hre
        simp only [score_to_severity, hlk]
        by_cases h1 : pred.score * m.1.weight ≥ cfg.severe.getD (8/10)
        · simp [h1]
        · by_cases h2 : pred.score * m.1.weight ≥ cfg.moderate.getD (6/10)
          · simp [h1, h2]
          · simp [h1, h2, ge_iff_le, hmild]

/-- C4 (witness): the `hate_speech`-threshold-`0.5` configuration with a
`TOXIC 0.9` prediction satisfies the amended hypotheses, and the emitted
severities all lie in `{mild, moderate, severe}`. -/
theorem C4_severity_in_bands_witness :
    (∀ m ∈ modelsTox09, (m.1).cfgThreshold = none) ∧
    (∀ p ∈ catsHS, (p.2).mild.getD (3/10) ≤ (p.2).threshold) ∧
    ∀ g ∈ analyze_text catsHS modelsTox09 "t" "" "",
      g.severity ∈ (["mild", "moderate", "severe"] : List String) :=
  ⟨by decide, by decide,
    C4_severity_in_bands catsHS modelsTox09 "t" "" "" (by decide) (by decide)⟩

/-!
## C9 — per-model failure isolation and the no-model case

In `analyze_text` each model's inference runs inside its own
`try/except`: a failing model contributes nothing and the loop continues,
so the result equals the analysis without that model; with no loaded
models the function returns `[]` without raising (totality of the
embedding reflects that no exception escapes).
-/

/-- C9: removing an erroring model from the loaded-model list does not
change `analyze_text`'s output (the other models' contributions are
intact, the failing model's are omitted), and with zero loaded models the
result is `[]` for every input. -/
theorem C9_failure_isolation :
    (∀ (cats : List (String × CatCfg))
       (pre post : List (ModelInfo × Except Unit (List Pred)))
       (mi : ModelInfo) (e : Unit) (t b a : String),
       analyze_text cats (pre ++ (mi, Except.error e) :: post) t b a
         = analyze_text cats (pre ++ post) t b a) ∧
    (∀ (cats : List (String × CatCfg)) (t b a : String),
       analyze_text cats [] t b a = []) := by
  constructor
  · intro cats pre post mi e t b a
    by_cases h : pre ++ post = []
    · rcases List.append_eq_nil.mp h with ⟨h1, h2⟩
      subst h1; subst h2
      simp [analyze_text, combine_results]
    · rw [analyze_text, analyze_text]
      rw [if_neg (by simp), if_neg (by simp [h])]
      simp
  · intro cats t b a
    simp [analyze_text]

/-!
## C10 — three-decimal rounding of emitted scores

Initial emission rounds `score` and `confidence` with `round(_, 3)`, and
a merge either keeps the stored (already rounded) values or writes
freshly rounded ones, so every emitted value is an integer multiple of
`1/1000`.
-/

/-- C10: every trigger returned by `analyze_text` has its score and its
confidence equal to `k/1000` for some integer `k` — i.e. both are
rounded to three decimal places. -/
theorem C10_scores_rounded (cats : List (String × CatCfg))
    (models : List (ModelInfo × Except Unit (List Pred))) (t b a : String) :
    ∀ g ∈ analyze_text cats models t b a,
      (∃ k : ℤ, g.score = (k : ℚ) / 1000) ∧
      (∃ k : ℤ, g.confidence = (k : ℚ) / 1000) := by
  intro g hg
  rw [analyze_text] at hg
  split at hg
  · cases hg
  · refine combine_results_pres
      (fun u => (∃ k : ℤ, u.score = (k : ℚ) / 1000) ∧
        (∃ k : ℤ, u.confidence = (k : ℚ) / 1000))
      (fun x y hx _ => ?_) _ [] (by simp) (fun r hr => ?_) g hg
    · unfold merge_pair
      split
      · exact ⟨⟨_, rfl⟩, ⟨_, rfl⟩⟩
      · exact hx
    · rw [List.mem_flatMap] at hr
      obtain ⟨m, _, hrm⟩ := hr
      rcases hmo : m.2 with e | preds
      · rw [hmo] at hrm; cases hrm
      · rw [hmo] at hrm
        obtain ⟨pred, _, category, cfg, _, _, hre⟩ := mem_run_model_analysis hrm
        subst hre
        exact ⟨⟨_, rfl⟩, ⟨_, rfl⟩⟩

/-- C10 (witness): the `TOXIC 0.9` trigger is produced by `analyze_text`
and its score and confidence are multiples of `1/1000`. -/
theorem C10_scores_rounded_witness :
    gTox ∈ analyze_text catsHS modelsTox09 "t" "" "" ∧
    (∃ k : ℤ, gTox.score = (k : ℚ) / 1000) ∧
    (∃ k : ℤ, gTox.confidence = (k : ℚ) / 1000) :=
  ⟨by decide,
    (C10_scores_rounded catsHS modelsTox09 "t" "" "" gTox (by decide)).1,
    (C10_scores_rounded catsHS modelsTox09 "t" "" "" gTox (by decide)).2⟩

/-! ## Helper lemmas about the store model -/

theorem executeAll_error_of_exists (fail : DbOp → Bool) :
    ∀ (ops : List DbOp) (s : Session), (∃ op ∈ ops, fail op = true) →
      executeAll fail s ops = Except.error () := by
  intro ops
  induction ops with
  | nil =>
    intro s h
    obtain ⟨op, hop, _⟩ := h
    cases hop
  | cons op rest ih =>
    intro s h
    rw [executeAll]
    by_cases hf : fail op = true
    · simp [execute, hf]
    · have hrest : ∃ o ∈ rest, fail o = true := by
        obtain ⟨o, ho, hfo⟩ := h
        rcases List.mem_cons.mp ho with rfl | ho
        · exact absurd hfo hf
        · exact ⟨o, ho, hfo⟩
      rw [Bool.not_eq_true] at hf
      simp only [execute, hf, Bool.false_eq_true, if_false]
      exact ih _ hrest

theorem find_status_map (files : List (Nat × String × String)) (path st : String) :
    ((files.map fun f => if f.2.1 = path then (f.1, path, st) else f).find?
        (fun f => f.2.1 = path)).map (·.2.2)
      = ((files.find? fun f => f.2.1 = path).map (·.2.2)).map fun _ => st := by
  induction files with
  | nil => simp
  | cons f fs ih =>
    by_cases hf : f.2.1 = path
    · simp [hf]
    · simp only [List.map_cons, if_neg hf]
      rw [List.find?_cons_of_neg _ (by simpa using hf),
        List.find?_cons_of_neg _ (by simpa using hf)]
      exact ih

theorem fileStatus_setStatus (db : DB) (path st : String) :
    fileStatus (applyOp db (DbOp.setStatus path st)) path
      = (fileStatus db path).map fun _ => st := by
  simp only [fileStatus, applyOp]
  exact find_status_map db.files path st

/-!
## C2 — persistence failure: rollback, but job still marked `completed`

`store_scan_results` catches its own exception after rolling back and
does **not** re-raise, so `process_job`'s `except` never fires and the
file is marked `completed`, not `error`.  The rollback half of the claim
holds: no scan-result or trigger row of the failed write is committed.
-/

/-- C2 (counterexample): with a failure on the trigger-row insert, the
whole result is rolled back (no scan or trigger rows committed) but the
file finishes with status `completed`, not `error`. -/
theorem C2_counterexample :
    (fileStatus (process_job failTrig s0 "f.srt" [entry1] catsHS inferTox 5).committed
        "f.srt" = some "completed") ∧
    (process_job failTrig s0 "f.srt" [entry1] catsHS inferTox 5).committed.scan_results
      = [] ∧
    (process_job failTrig s0 "f.srt" [entry1] catsHS inferTox 5).committed.trigger_rows
      = [] ∧
    ("completed" : String) ≠ "error" := by
  refine ⟨by decide, by decide, by decide, by decide⟩

/-- C2 (amended): if any write of the result set fails, `process_job`
commits none of the job's scan-result or trigger rows (the transaction is
rolled back), but — because `store_scan_results` swallows the exception —
it still marks the file `completed`, not `error`. -/
theorem C2_store_failure_rollback (fail : DbOp → Bool) (s : Session) (path : String)
    (entries : List Entry) (cats : List (String × CatCfg))
    (infer : Nat → List (ModelInfo × Except Unit (List Pred))) (ptime : Nat)
    (hp : s.pending = [])
    (hset : ∀ st, fail (DbOp.setStatus path st) = false)
    (hne : entries ≠ [])
    (hfail : ∃ op ∈ result_ops (applyOp s.committed (DbOp.setStatus path "processing"))
        path (job_triggers cats infer entries)
        (compute_summary (job_triggers cats infer entries)).1
        (compute_summary (job_triggers cats infer entries)).2 ptime, fail op = true) :
    process_job fail s path entries cats infer ptime
      = ⟨applyOp (applyOp s.committed (DbOp.setStatus path "processing"))
          (DbOp.setStatus path "completed"), []⟩ ∧
    (process_job fail s path entries cats infer ptime).committed.scan_results
      = s.committed.scan_results ∧
    (process_job fail s path entries cats infer ptime).committed.trigger_rows
      = s.committed.trigger_rows ∧
    fileStatus (process_job fail s path entries cats infer ptime).committed path
      = (fileStatus s.committed path).map fun _ => "completed" := by
  have hs1 : update_file_status fail s path "processing"
      = ⟨applyOp s.committed (DbOp.setStatus path "processing"), []⟩ := by
    simp [update_file_status, execute, hset, commitS, viewS, applyOps, hp]
  have hview : ∀ db : DB, viewS ⟨db, []⟩ = db := by
    intro db; simp [viewS, applyOps]
  have hstore : store_scan_results fail
      ⟨applyOp s.committed (DbOp.setStatus path "processing"), []⟩ path
      (job_triggers cats infer entries) ptime
      (compute_summary (job_triggers cats infer entries)).1
      (compute_summary (job_triggers cats infer entries)).2
      = ⟨applyOp s.committed (DbOp.setStatus path "processing"), []⟩ := by
    rw [store_scan_results]
    rw [hview]
    rcases hid : findFileId (applyOp s.committed (DbOp.setStatus path "processing")).files
        path with _ | fid
    · rfl
    · have herr := executeAll_error_of_exists fail _
        ⟨applyOp s.committed (DbOp.setStatus path "processing"), []⟩ hfail
      rw [herr]
      rfl
  have hemp : entries.isEmpty = false := by
    cases entries with
    | nil => exact absurd rfl hne
    | cons a l => rfl
  have hpj : process_job fail s path entries cats infer ptime
      = ⟨applyOp (applyOp s.committed (DbOp.setStatus path "processing"))
          (DbOp.setStatus path "completed"), []⟩ := by
    simp only [process_job, hemp, Bool.false_eq_true, if_false]
    rw [hs1, hstore]
    simp [update_file_status, execute, hset, commitS, viewS, applyOps]
  refine ⟨hpj, ?_, ?_, ?_⟩
  · rw [hpj]
    rfl
  · rw [hpj]
    rfl
  · rw [hpj]
    show fileStatus (applyOp (applyOp s.committed (DbOp.setStatus path "processing"))
        (DbOp.setStatus path "completed")) path = _
    rw [fileStatus_setStatus, fileStatus_setStatus, Option.map_map]
    rfl

/-- C2 (witness): the amended statement at the one-file database with a
failing scan-result insert. -/
theorem C2_store_failure_rollback_witness :
    s0.pending = [] ∧
    (∀ st, failScan (DbOp.setStatus "f.srt" st) = false) ∧
    ([entry1] : List Entry) ≠ [] ∧
    (∃ op ∈ result_ops (applyOp s0.committed (DbOp.setStatus "f.srt" "processing"))
        "f.srt" (job_triggers catsHS inferTox [entry1])
        (compute_summary (job_triggers catsHS inferTox [entry1])).1
        (compute_summary (job_triggers catsHS inferTox [entry1])).2 5,
      failScan op = true) ∧
    (process_job failScan s0 "f.srt" [entry1] catsHS inferTox 5
        = ⟨applyOp (applyOp s0.committed (DbOp.setStatus "f.srt" "processing"))
            (DbOp.setStatus "f.srt" "completed"), []⟩ ∧
     (process_job failScan s0 "f.srt" [entry1] catsHS inferTox 5).committed.scan_results
        = s0.committed.scan_results ∧
     (process_job failScan s0 "f.srt" [entry1] catsHS inferTox 5).committed.trigger_rows
        = s0.committed.trigger_rows ∧
     fileStatus (process_job failScan s0 "f.srt" [entry1] catsHS inferTox 5).committed
        "f.srt" = (fileStatus s0.committed "f.srt").map fun _ => "completed") :=
  ⟨rfl, fun _ => rfl, by decide, by decide,
    C2_store_failure_rollback failScan s0 "f.srt" [entry1] catsHS inferTox 5
      rfl (fun _ => rfl) (by decide) (by decide)⟩

/-!
## C6 — jobs with zero segments

`process_job` returns right after marking the file `completed`: no
scan-result row (and no trigger rows) is ever written for an empty file,
so there is no "recorded result" carrying zeros — contrary to the claim.
-/

/-- C6 (counterexample): a zero-segment job finishes `completed`, but the
`scan_results` table stays empty — no result row with
`overall_risk_score = 0`, `highest_severity = "none"`,
`total_triggers = 0` (or any other values) is recorded. -/
theorem C6_counterexample :
    (fileStatus (process_job noFail s0 "f.srt" [] catsHS inferTox 5).committed "f.srt"
      = some "completed") ∧
    (process_job noFail s0 "f.srt" [] catsHS inferTox 5).committed.scan_results = [] ∧
    ¬ ∃ r ∈ (process_job noFail s0 "f.srt" [] catsHS inferTox 5).committed.scan_results,
        r.2.overall_risk_score = 0 ∧ r.2.highest_severity = "none" ∧
        r.2.total_triggers = 0 := by
  refine ⟨by decide, by decide, by decide⟩

/-- C6 (amended): a job whose file parses to zero segments is marked
`completed` (not `error`) and `process_job` returns without persisting
anything: the committed `scan_results` and `triggers` tables are
unchanged. -/
theorem C6_empty_job_completes (fail : DbOp → Bool) (s : Session) (path : String)
    (cats : List (String × CatCfg))
    (infer : Nat → List (ModelInfo × Except Unit (List Pred))) (ptime : Nat)
    (hp : s.pending = [])
    (hset : ∀ st, fail (DbOp.setStatus path st) = false) :
    process_job fail s path [] cats infer ptime
      = ⟨applyOp (applyOp s.committed (DbOp.setStatus path "processing"))
          (DbOp.setStatus path "completed"), []⟩ ∧
    (process_job fail s path [] cats infer ptime).committed.scan_results
      = s.committed.scan_results ∧
    (process_job fail s path [] cats infer ptime).committed.trigger_rows
      = s.committed.trigger_rows ∧
    fileStatus (process_job fail s path [] cats infer ptime).committed path
      = (fileStatus s.committed path).map fun _ => "completed" := by
  have hs1 : update_file_status fail s path "processing"
      = ⟨applyOp s.committed (DbOp.setStatus path "processing"), []⟩ := by
    simp [update_file_status, execute, hset, commitS, viewS, applyOps, hp]
  have hpj : process_job fail s path [] cats infer ptime
      = ⟨applyOp (applyOp s.committed (DbOp.setStatus path "processing"))
          (DbOp.setStatus path "completed"), []⟩ := by
    rw [process_job, hs1]
    simp [update_file_status, execute, hset, commitS, viewS, applyOps]
  refine ⟨hpj, ?_, ?_, ?_⟩
  · rw [hpj]
    rfl
  · rw [hpj]
    rfl
  · rw [hpj]
    show fileStatus (applyOp (applyOp s.committed (DbOp.setStatus path "processing"))
        (DbOp.setStatus path "completed")) path = _
    rw [fileStatus_setStatus, fileStatus_setStatus, Option.map_map]
    rfl

/-!
## C3 — bounds and vanishing of `overall_risk_score`

`overall_risk_score = Σ(score·confidence)/Σ(confidence)` is a weighted
average of the trigger scores: it stays in `[0,1]` **provided** every
trigger score is at most `1` — which the pipeline does not guarantee,
since `score = round(raw·weight, 3)` is not clamped and model weights
above `1` are allowed.  It also vanishes on some nonempty trigger lists
(when every `score·confidence` is `0`, e.g. all confidences round to
`0`), so "equals 0 exactly when empty" fails too.
-/

theorem sum_map_nonneg {α : Type} (l : List α) (f : α → ℚ)
    (h : ∀ x ∈ l, 0 ≤ f x) : 0 ≤ (l.map f).sum := by
  refine List.sum_nonneg ?_
  intro q hq
  obtain ⟨x, hx, rfl⟩ := List.mem_map.mp hq
  exact h x hx

theorem sum_map_eq_zero_iff {α : Type} (l : List α) (f : α → ℚ)
    (h : ∀ x ∈ l, 0 ≤ f x) : (l.map f).sum = 0 ↔ ∀ x ∈ l, f x = 0 := by
  induction l with
  | nil => simp
  | cons x xs ih =>
    have hx := h x (by simp)
    have hxs : ∀ y ∈ xs, 0 ≤ f y := fun y hy => h y (by simp [hy])
    have hs : 0 ≤ (xs.map f).sum := sum_map_nonneg xs f hxs
    simp only [List.map_cons, List.sum_cons, List.mem_cons]
    rw [add_eq_zero_iff_of_nonneg hx hs, ih hxs]
    constructor
    · rintro ⟨h1, h2⟩ y (rfl | hy)
      · exact h1
      · exact h2 y hy
    · intro hy
      exact ⟨hy x (Or.inl rfl), fun y hyy => hy y (Or.inr hyy)⟩

/-- C3 (counterexample): a weight-`2` model yields a completed-job
`overall_risk_score` of `1.8 ∉ [0,1]`; and a threshold-`0` category with
a tiny prediction yields a **nonempty** trigger list whose
`overall_risk_score` is `0` — refuting both halves of the claim. -/
theorem C3_counterexample :
    (compute_summary (job_triggers catsHS (fun _ => modelsTox2) [entry1])).1 = 9/5 ∧
    ¬ (compute_summary (job_triggers catsHS (fun _ => modelsTox2) [entry1])).1 ≤ 1 ∧
    job_triggers catsZero (fun _ => modelsTiny) [entry1] ≠ [] ∧
    (compute_summary (job_triggers catsZero (fun _ => modelsTiny) [entry1])).1 = 0 := by
  refine ⟨by decide, by decide, by decide, by decide⟩

/-- C3 (amended): whenever every trigger's score lies in `[0,1]` (e.g.
all adjusted scores at most `1`) and confidences are nonnegative, the
computed `overall_risk_score` lies in `[0,1]`; and it equals `0` iff the
trigger list is empty **or** every trigger has `score·confidence = 0`. -/
theorem C3_risk_bounds (L : List WTrig)
    (hb : ∀ t ∈ L, 0 ≤ t.score ∧ t.score ≤ 1 ∧ 0 ≤ t.confidence) :
    (0 ≤ (compute_summary L).1 ∧ (compute_summary L).1 ≤ 1) ∧
    ((compute_summary L).1 = 0 ↔ L = [] ∨ ∀ t ∈ L, t.score * t.confidence = 0) := by
  rcases hL : L.isEmpty with hfalse | htrue
  case true =>
    have : L = [] := by
      cases L with
      | nil => rfl
      | cons a l => cases hL
    subst this
    simp [compute_summary]
  case false =>
    have hLne : L ≠ [] := by
      cases L with
      | nil => cases hL
      | cons a l => simp
    have hsc : ∀ t ∈ L, 0 ≤ t.score * t.confidence :=
      fun t ht => mul_nonneg (hb t ht).1 (hb t ht).2.2
    have hcn : ∀ t ∈ L, (0:ℚ) ≤ t.confidence := fun t ht => (hb t ht).2.2
    have hS0 : 0 ≤ (L.map fun t => t.score * t.confidence).sum :=
      sum_map_nonneg L _ hsc
    have hW0 : 0 ≤ (L.map fun t => t.confidence).sum := sum_map_nonneg L _ hcn
    have hSW : (L.map fun t => t.score * t.confidence).sum
        ≤ (L.map fun t => t.confidence).sum := by
      refine List.sum_le_sum ?_
      intro t ht
      exact mul_le_of_le_one_left (hb t ht).2.2 (hb t ht).2.1
    rw [compute_summary, hL]
    simp only [Bool.false_eq_true, if_false]
    by_cases hW : (L.map fun t => t.confidence).sum > 0
    · rw [if_pos hW]
      refine ⟨⟨div_nonneg hS0 (le_of_lt hW), (div_le_one hW).mpr hSW⟩, ?_⟩
      rw [div_eq_zero_iff]
      constructor
      · rintro (h0 | h0)
        · exact Or.inr ((sum_map_eq_zero_iff L _ hsc).mp h0)
        · exact absurd h0 (ne_of_gt hW)
      · rintro (rfl | hall)
        · exact absurd rfl hLne
        · exact Or.inl ((sum_map_eq_zero_iff L _ hsc).mpr hall)
    · rw [if_neg hW]
      have hWz : (L.map fun t => t.confidence).sum = 0 :=
        le_antisymm (not_lt.mp hW) hW0
      have hcz : ∀ t ∈ L, t.confidence = 0 :=
        (sum_map_eq_zero_iff L _ hcn).mp hWz
      refine ⟨⟨le_refl 0, by norm_num⟩, ?_⟩
      constructor
      · intro _
        exact Or.inr fun t ht => by rw [hcz t ht, mul_zero]
      · intro _
        rfl

/-- C3 (witness): the amended bounds at the `TOXIC 0.9`, weight-`1` job
— its one trigger has score and confidence `0.9`. -/
theorem C3_risk_bounds_witness :
    (∀ t ∈ job_triggers catsHS inferTox [entry1],
       0 ≤ t.score ∧ t.score ≤ 1 ∧ 0 ≤ t.confidence) ∧
    ((0 ≤ (compute_summary (job_triggers catsHS inferTox [entry1])).1 ∧
      (compute_summary (job_triggers catsHS inferTox [entry1])).1 ≤ 1) ∧
     ((compute_summary (job_triggers catsHS inferTox [entry1])).1 = 0 ↔
       job_triggers catsHS inferTox [entry1] = [] ∨
       ∀ t ∈ job_triggers catsHS inferTox [entry1], t.score * t.confidence = 0)) :=
  ⟨by decide, C3_risk_bounds (job_triggers catsHS inferTox [entry1]) (by decide)⟩

/-- C6 (witness): the amended statement at the one-file database. -/
theorem C6_empty_job_completes_witness :
    s0.pending = [] ∧
    (∀ st, noFail (DbOp.setStatus "f.srt" st) = false) ∧
    (process_job noFail s0 "f.srt" [] catsHS inferTox 5
        = ⟨applyOp (applyOp s0.committed (DbOp.setStatus "f.srt" "processing"))
            (DbOp.setStatus "f.srt" "completed"), []⟩ ∧
     (process_job noFail s0 "f.srt" [] catsHS inferTox 5).committed.scan_results
        = s0.committed.scan_results ∧
     (process_job noFail s0 "f.srt" [] catsHS inferTox 5).committed.trigger_rows
        = s0.committed.trigger_rows ∧
     fileStatus (process_job noFail s0 "f.srt" [] catsHS inferTox 5).committed "f.srt"
        = (fileStatus s0.committed "f.srt").map fun _ => "completed") :=
  ⟨rfl, fun _ => rfl,
    C6_empty_job_completes noFail s0 "f.srt" catsHS inferTox 5 rfl fun _ => rfl⟩

/-!
## C8 — the concrete one-block SRT scenario
-/

/-- C8: the exact input
`"1\n00:00:01,000 --> 00:00:02,000\nHello <b>world</b>\n\n"` parses to
one segment: index `1`, timestamps normalised to a period separator,
markup stripped from the text. -/
theorem C8_single_block :
    parse_srt_content "1\n00:00:01,000 --> 00:00:02,000\nHello <b>world</b>\n\n"
      = [⟨1, "00:00:01.000", "00:00:02.000", "Hello world"⟩] := by
  decide

/-- C5 (counterexample): a well-formed two-block input `1`, `2` whose
first block cleans to empty text (`<b></b>`) parses to a single segment
whose index is `2` — the output indexes neither start at `1` nor close
the gap left by the dropped block. -/
theorem C5_counterexample :
    (parse_srt_content
        "1\n00:00:01,000 --> 00:00:02,000\n<b></b>\n\n2\n00:00:03,000 --> 00:00:04,000\nHi\n\n").map
        Entry.number = [2] ∧
    ([2] : List Nat) ≠ [1] := by
  refine ⟨by decide, by decide⟩

/-! ## Character-class and run-munching lemmas -/

theorem digitChar_isDigit {n : Nat} (h : n ≤ 9) : (digitChar n).isDigit = true := by
  interval_cases n <;> decide

theorem digitChar_toNat {n : Nat} (h : n ≤ 9) : (digitChar n).toNat = 48 + n := by
  interval_cases n <;> decide

theorem commaDot_digitChar {n : Nat} (h : n ≤ 9) :
    (if digitChar n = ',' then '.' else digitChar n) = digitChar n := by
  interval_cases n <;> decide

theorem not_ws_of_isDigit {c : Char} (h : c.isDigit = true) : isWsChar c = false := by
  cases hws : isWsChar c
  · rfl
  · exfalso
    simp only [isWsChar, Bool.or_eq_true, decide_eq_true_eq] at hws
    rcases hws with ((((rfl | rfl) | rfl) | rfl) | rfl) | rfl <;>
      exact absurd h (by decide)

theorem ne_nl_of_isDigit {c : Char} (h : c.isDigit = true) : c ≠ '\n' := by
  intro e
  subst e
  exact absurd h (by decide)

theorem takeWhile_append_not {p : Char → Bool} {xs ys : List Char} {y : Char}
    (hxs : ∀ c ∈ xs, p c = true) (hy : p y = false) :
    (xs ++ y :: ys).takeWhile p = xs := by
  induction xs with
  | nil => simp [List.takeWhile_cons, hy]
  | cons a l ih =>
    have ha := hxs a (by simp)
    simp [List.takeWhile_cons, ha, ih fun c hc => hxs c (by simp [hc])]

theorem dropWhile_append_not {p : Char → Bool} {xs ys : List Char} {y : Char}
    (hxs : ∀ c ∈ xs, p c = true) (hy : p y = false) :
    (xs ++ y :: ys).dropWhile p = y :: ys := by
  induction xs with
  | nil => simp [List.dropWhile_cons, hy]
  | cons a l ih =>
    have ha := hxs a (by simp)
    simp [List.dropWhile_cons, ha, ih fun c hc => hxs c (by simp [hc])]

theorem dropWhile_head_not {p : Char → Bool} :
    ∀ {l l' : List Char} {a : Char}, l.dropWhile p = a :: l' → p a = false := by
  intro l
  induction l with
  | nil => intro l' a h; cases h
  | cons c cs ih =>
    intro l' a h
    rw [List.dropWhile_cons] at h
    split at h
    · exact ih h
    · cases h
      rename_i hc
      exact Bool.not_eq_true _ ▸ (by simpa using hc)

theorem takeWhile_length_lt_of_mem {p : Char → Bool} {a : Char} {l : List Char}
    (ha : a ∈ l) (hpa : p a = false) : (l.takeWhile p).length < l.length := by
  induction l with
  | nil => cases ha
  | cons c cs ih =>
    rw [List.takeWhile_cons]
    by_cases hc : p c = true
    · have hacs : a ∈ cs := by
        rcases List.mem_cons.mp ha with rfl | h
        · rw [hc] at hpa; cases hpa
        · exact h
      simpa [hc] using ih hacs
    · simp [hc]

/-! ## The scanner on rendered blocks -/

theorem parseTimestamp_tc (t : Tc) (h : WFtc t) (rest : List Char) :
    parseTimestamp (tcChars ',' t ++ rest) = some (tcChars ',' t, rest) := by
  obtain ⟨h1, h2, h3, h4⟩ := h
  have d1 : t.hh / 10 ≤ 9 := by omega
  have d2 : t.hh % 10 ≤ 9 := by omega
  have d3 : t.mm / 10 ≤ 9 := by omega
  have d4 : t.mm % 10 ≤ 9 := by omega
  have d5 : t.ss / 10 ≤ 9 := by omega
  have d6 : t.ss % 10 ≤ 9 := by omega
  have d7 : t.ms / 100 ≤ 9 := by omega
  have d8 : t.ms / 10 % 10 ≤ 9 := by omega
  have d9 : t.ms % 10 ≤ 9 := by omega
  simp [tcChars, parseTimestamp, digitChar_isDigit, d1, d2, d3, d4, d5, d6, d7, d8, d9]

theorem parseTimestamp_some_length {l t r : List Char}
    (h : parseTimestamp l = some (t, r)) : l.length = r.length + 12 := by
  unfold parseTimestamp at h
  split at h
  · split at h
    · cases h
      simp
    · cases h
  · cases h

theorem lookahead_cons_ne {c : Char} {rest : List Char} (h : c ≠ '\n') :
    lookahead (c :: rest) = false := by
  simp [lookahead, h]

theorem lookahead_terminator (rest : List Char) :
    lookahead ('\n' :: '\n' :: rest) = true := by
  rw [lookahead]
  rw [if_pos rfl]
  have hw : ('\n' :: rest).takeWhile isWsChar
      = '\n' :: rest.takeWhile isWsChar := by
    rw [List.takeWhile_cons]
    simp [isWsChar]
  rw [hw]
  simp [List.contains_cons]

theorem lazyText_append {t r : List Char} (hnl : '\n' ∉ t)
    (hr : lookahead r = true) : lazyText (t ++ r) = (t, r) := by
  induction t with
  | nil =>
    cases r with
    | nil => simp [lazyText]
    | cons c rs => simp [lazyText, hr]
  | cons c t' ih =>
    have hc : c ≠ '\n' := by
      intro e
      exact hnl (e ▸ List.mem_cons_self c t')
    have hfalse : lookahead (c :: (t' ++ r)) = false := lookahead_cons_ne hc
    have ht' : '\n' ∉ t' := fun hm => hnl (List.mem_cons_of_mem _ hm)
    simp [lazyText, hfalse, ih ht']

theorem lazyText_snd_length (cs : List Char) :
    (lazyText cs).2.length ≤ cs.length := by
  induction cs with
  | nil => simp [lazyText]
  | cons c rest ih =>
    rw [lazyText]
    split
    · simp
    · simpa using Nat.le_succ_of_le ih

theorem takeWhile_ws_nl {c : Char} (hc : isWsChar c = false) (z : List Char) :
    ('\n' :: c :: z).takeWhile isWsChar = ['\n'] := by
  have hnl : isWsChar '\n' = true := by decide
  simp [List.takeWhile_cons, hnl, hc]

theorem dropWhile_ws_space {c : Char} (hc : isWsChar c = false) (z : List Char) :
    (' ' :: c :: z).dropWhile isWsChar = c :: z := by
  have hsp : isWsChar ' ' = true := by decide
  simp [List.dropWhile_cons, hsp, hc]

theorem matchAt_nl (x : List Char) : matchAt ('\n' :: x) = none := by
  have h : Char.isDigit '\n' = false := by decide
  simp [matchAt, List.takeWhile_cons, h]

theorem stripArrow_arrow (r : List Char) :
    stripArrow ('-' :: '-' :: '>' :: r) = some r := by
  simp [stripArrow]

theorem matchAt_render (b : Block) (hb : WFblock b) (rest : List Char) :
    matchAt (renderBlock b ++ rest)
      = some (⟨b.num, tcChars ',' b.tstart, tcChars ',' b.tstop, b.txt⟩,
          '\n' :: '\n' :: rest) := by
  obtain ⟨hnum_ne, hnum_dig, hwf1, hwf2, _, htxt_ne, htxt_nl, htxt_nws⟩ := hb
  have da : (digitChar (b.tstart.hh / 10)).isDigit = true :=
    digitChar_isDigit (by obtain ⟨h1, _, _, _⟩ := hwf1; omega)
  have dbb : (digitChar (b.tstop.hh / 10)).isDigit = true :=
    digitChar_isDigit (by obtain ⟨h1, _, _, _⟩ := hwf2; omega)
  -- decomposition of the text line around its leading whitespace
  have htxt_eq : b.txt.takeWhile isWsChar ++ b.txt.dropWhile isWsChar = b.txt :=
    List.takeWhile_append_dropWhile (p := isWsChar) (l := b.txt)
  have hdtl_ne : b.txt.dropWhile isWsChar ≠ [] := by
    intro e
    obtain ⟨c, hc, hcf⟩ := htxt_nws
    have hall := List.dropWhile_eq_nil_iff.mp e
    rw [hall c hc] at hcf
    cases hcf
  obtain ⟨d, dtl', hd⟩ := List.exists_cons_of_ne_nil hdtl_ne
  have hdws : isWsChar d = false := dropWhile_head_not hd
  have hwp_ws : ∀ c ∈ b.txt.takeWhile isWsChar, isWsChar c = true :=
    fun c hc => List.mem_takeWhile_imp hc
  have hwp_nl : '\n' ∉ b.txt.takeWhile isWsChar :=
    fun hm => htxt_nl (( List.takeWhile_prefix _).subset hm)
  have hnum_empty : b.num.isEmpty = false := by
    cases hn : b.num with
    | nil => exact absurd hn hnum_ne
    | cons a l => rfl
  -- overall shape
  have key : renderBlock b ++ rest
      = b.num ++ '\n' :: (tcChars ',' b.tstart ++ ' ' :: '-' :: '-' :: '>' :: ' ' ::
          (tcChars ',' b.tstop ++ '\n' :: (b.txt ++ '\n' :: '\n' :: rest))) := by
    simp [renderBlock]
  rw [key]
  simp only [matchAt]
  -- group 1: the index digits
  rw [takeWhile_append_not hnum_dig (by decide : Char.isDigit '\n' = false)]
  rw [hnum_empty]
  rw [if_neg (by simp)]
  rw [List.drop_left]
  -- `\s*\n` after the index: exactly the newline
  have hw1 : ('\n' :: (tcChars ',' b.tstart ++ ' ' :: '-' :: '-' :: '>' :: ' ' ::
      (tcChars ',' b.tstop ++ '\n' :: (b.txt ++ '\n' :: '\n' :: rest)))).takeWhile
        isWsChar = ['\n'] := by
    have := takeWhile_ws_nl (not_ws_of_isDigit da)
    simpa [tcChars] using this _
  rw [hw1]
  rw [if_neg (by decide)]
  have hdrop1 : (('\n' : Char) :: (tcChars ',' b.tstart ++ ' ' :: '-' :: '-' :: '>' ::
      ' ' :: (tcChars ',' b.tstop ++ '\n' :: (b.txt ++ '\n' :: '\n' :: rest)))).drop
        (['\n'] : List Char).length
      = tcChars ',' b.tstart ++ ' ' :: '-' :: '-' :: '>' :: ' ' ::
          (tcChars ',' b.tstop ++ '\n' :: (b.txt ++ '\n' :: '\n' :: rest)) := by
    simp
  rw [hdrop1]
  rw [parseTimestamp_tc b.tstart hwf1, Option.some_bind]
  -- the arrow
  have harrow : (((' ' : Char) :: '-' :: '-' :: '>' :: ' ' ::
      (tcChars ',' b.tstop ++ '\n' :: (b.txt ++ '\n' :: '\n' :: rest)))).dropWhile
        isWsChar
      = '-' :: '-' :: '>' :: ' ' ::
          (tcChars ',' b.tstop ++ '\n' :: (b.txt ++ '\n' :: '\n' :: rest)) := by
    exact dropWhile_ws_space (by decide) _
  rw [harrow, stripArrow_arrow, Option.some_bind]
  have harrow2 : ((' ' : Char) :: (tcChars ',' b.tstop ++ '\n' ::
      (b.txt ++ '\n' :: '\n' :: rest))).dropWhile isWsChar
      = tcChars ',' b.tstop ++ '\n' :: (b.txt ++ '\n' :: '\n' :: rest) := by
    have := dropWhile_ws_space (not_ws_of_isDigit dbb)
    simpa [tcChars] using this _
  rw [harrow2]
  rw [parseTimestamp_tc b.tstop hwf2, Option.some_bind]
  -- `\s*\n` before the lazy group: the newline plus the text's leading whitespace
  have hsplit : ('\n' : Char) :: (b.txt ++ '\n' :: '\n' :: rest)
      = ('\n' :: b.txt.takeWhile isWsChar) ++
          (d :: (dtl' ++ '\n' :: '\n' :: rest)) := by
    conv_lhs => rw [← htxt_eq, hd]
    simp
  rw [hsplit]
  have hw2 : (('\n' :: b.txt.takeWhile isWsChar) ++
      (d :: (dtl' ++ '\n' :: '\n' :: rest))).takeWhile isWsChar
      = '\n' :: b.txt.takeWhile isWsChar := by
    refine takeWhile_append_not ?_ hdws
    intro c hc
    rcases List.mem_cons.mp hc with rfl | hc
    · decide
    · exact hwp_ws c hc
  rw [hw2]
  rw [if_pos (by simp [List.contains_cons])]
  have htail : (('\n' :: b.txt.takeWhile isWsChar).reverse.takeWhile
      fun c => c != '\n').reverse = b.txt.takeWhile isWsChar := by
    have hrev : ('\n' :: b.txt.takeWhile isWsChar).reverse
        = (b.txt.takeWhile isWsChar).reverse ++ '\n' :: [] := by simp
    rw [hrev]
    rw [takeWhile_append_not (p := fun c => c != '\n') ?_ (by decide)]
    · simp
    · intro c hc
      have hcm : c ∈ b.txt.takeWhile isWsChar := List.mem_reverse.mp hc
      have : c ≠ '\n' := fun e => hwp_nl (e ▸ hcm)
      simpa using this
  rw [htail]
  rw [List.drop_left]
  have hlazy : lazyText (b.txt.takeWhile isWsChar ++ (d :: (dtl' ++ '\n' :: '\n' :: rest)))
      = (b.txt, '\n' :: '\n' :: rest) := by
    have hre : b.txt.takeWhile isWsChar ++ (d :: (dtl' ++ '\n' :: '\n' :: rest))
        = b.txt ++ '\n' :: '\n' :: rest := by
      conv_rhs => rw [← htxt_eq, hd]
      simp
    rw [hre]
    exact lazyText_append htxt_nl (lookahead_terminator rest)
  rw [hlazy]

/-! ## Fuel sufficiency of the scanner -/

theorem takeWhile_length_le (p : Char → Bool) (l : List Char) :
    (l.takeWhile p).length ≤ l.length := by
  induction l with
  | nil => simp
  | cons c cs ih =>
    rw [List.takeWhile_cons]
    split
    · simpa using ih
    · simp

theorem dropWhile_length_le (p : Char → Bool) (l : List Char) :
    (l.dropWhile p).length ≤ l.length := by
  induction l with
  | nil => simp
  | cons c cs ih =>
    rw [List.dropWhile_cons]
    split
    · exact Nat.le_succ_of_le ih
    · simp

theorem stripArrow_some_length {l r : List Char} (h : stripArrow l = some r) :
    l.length = r.length + 3 := by
  unfold stripArrow at h
  split at h
  · split at h
    · cases h
      simp
    · cases h
  · cases h

theorem matchAt_some_length {cs : List Char} {m : SrtMatch} {r : List Char}
    (h : matchAt cs = some (m, r)) : r.length < cs.length := by
  simp only [matchAt] at h
  split at h
  · cases h
  · rename_i hne1
    split at h
    · cases h
    · rename_i hlast
      have hnum_len : 1 ≤ (cs.takeWhile Char.isDigit).length := by
        rcases he : cs.takeWhile Char.isDigit with _ | ⟨a, l⟩
        · rw [he] at hne1; simp at hne1
        · simp
      have hnum_le : (cs.takeWhile Char.isDigit).length ≤ cs.length :=
        takeWhile_length_le _ _
      have hr1 : (cs.drop (cs.takeWhile Char.isDigit).length).length
          = cs.length - (cs.takeWhile Char.isDigit).length := List.length_drop _ _
      have hw1_ne : (cs.drop (cs.takeWhile Char.isDigit).length).takeWhile isWsChar
          ≠ [] := by
        intro e
        rw [e] at hlast
        simp at hlast
      have hw1_len : 1 ≤ ((cs.drop (cs.takeWhile Char.isDigit).length).takeWhile
          isWsChar).length := by
        rcases he : (cs.drop (cs.takeWhile Char.isDigit).length).takeWhile isWsChar
          with _ | ⟨a, l⟩
        · exact absurd he hw1_ne
        · simp
      have hw1_le : ((cs.drop (cs.takeWhile Char.isDigit).length).takeWhile
          isWsChar).length ≤ (cs.drop (cs.takeWhile Char.isDigit).length).length :=
        takeWhile_length_le _ _
      rcases hp1 : parseTimestamp ((cs.drop (cs.takeWhile Char.isDigit).length).drop
          ((cs.drop (cs.takeWhile Char.isDigit).length).takeWhile isWsChar).length)
        with _ | p1
      · rw [hp1] at h
        cases h
      · rw [hp1, Option.some_bind] at h
        have hl1 : ((cs.drop (cs.takeWhile Char.isDigit).length).drop
            ((cs.drop (cs.takeWhile Char.isDigit).length).takeWhile
              isWsChar).length).length = p1.2.length + 12 :=
          parseTimestamp_some_length hp1
        have hl1' : ((cs.drop (cs.takeWhile Char.isDigit).length).drop
            ((cs.drop (cs.takeWhile Char.isDigit).length).takeWhile
              isWsChar).length).length
            = (cs.drop (cs.takeWhile Char.isDigit).length).length -
              ((cs.drop (cs.takeWhile Char.isDigit).length).takeWhile
                isWsChar).length := List.length_drop _ _
        rcases hs3 : stripArrow (p1.2.dropWhile isWsChar) with _ | r3
        · rw [hs3] at h
          cases h
        · rw [hs3, Option.some_bind] at h
          have hl2 : (p1.2.dropWhile isWsChar).length = r3.length + 3 :=
            stripArrow_some_length hs3
          have hl2' : (p1.2.dropWhile isWsChar).length ≤ p1.2.length :=
            dropWhile_length_le _ _
          rcases hp2 : parseTimestamp (r3.dropWhile isWsChar) with _ | p2
          · rw [hp2] at h
            cases h
          · rw [hp2, Option.some_bind] at h
            have hl3 : (r3.dropWhile isWsChar).length = p2.2.length + 12 :=
              parseTimestamp_some_length hp2
            have hl3' : (r3.dropWhile isWsChar).length ≤ r3.length :=
              dropWhile_length_le _ _
            split at h
            · rename_i hcont
              have hmem : '\n' ∈ (p2.2.takeWhile isWsChar).reverse := by
                rw [List.mem_reverse]
                simpa using hcont
              have htw : ((p2.2.takeWhile isWsChar).reverse.takeWhile
                  fun c => c != '\n').length
                  < (p2.2.takeWhile isWsChar).reverse.length :=
                takeWhile_length_lt_of_mem hmem (by decide)
              have hw2_le : (p2.2.takeWhile isWsChar).length ≤ p2.2.length :=
                takeWhile_length_le _ _
              have hlazy := lazyText_snd_length
                (((p2.2.takeWhile isWsChar).reverse.takeWhile
                    fun c => c != '\n').reverse ++
                  p2.2.drop (p2.2.takeWhile isWsChar).length)
              have hr_eq : r = (lazyText
                  (((p2.2.takeWhile isWsChar).reverse.takeWhile
                      fun c => c != '\n').reverse ++
                    p2.2.drop (p2.2.takeWhile isWsChar).length)).2 := by
                have := h
                simp only [Option.some.injEq, Prod.mk.injEq] at this
                exact this.2.symm
              rw [hr_eq]
              have hdl : (p2.2.drop (p2.2.takeWhile isWsChar).length).length
                  = p2.2.length - (p2.2.takeWhile isWsChar).length :=
                List.length_drop _ _
              simp only [List.length_append, List.length_reverse] at hlazy htw ⊢
              omega
            · cases h

theorem srtScanAux_nil (f : Nat) : srtScanAux f [] = [] := by
  cases f <;> rfl

theorem srtScanAux_congr : ∀ (f₁ f₂ : Nat) (cs : List Char),
    cs.length ≤ f₁ → cs.length ≤ f₂ → srtScanAux f₁ cs = srtScanAux f₂ cs := by
  intro f₁
  induction f₁ with
  | zero =>
    intro f₂ cs h₁ _
    have : cs = [] := by
      cases cs with
      | nil => rfl
      | cons a l => simp at h₁
    subst this
    rw [srtScanAux_nil, srtScanAux_nil]
  | succ f₁ ih =>
    intro f₂ cs h₁ h₂
    cases cs with
    | nil => rw [srtScanAux_nil, srtScanAux_nil]
    | cons c rest =>
      cases f₂ with
      | zero => simp at h₂
      | succ f₂ =>
        rw [srtScanAux, srtScanAux]
        rcases hm : matchAt (c :: rest) with _ | ⟨m, r⟩
        · show srtScanAux f₁ rest = srtScanAux f₂ rest
          have hle : rest.length ≤ f₁ := by simp at h₁; omega
          have hle2 : rest.length ≤ f₂ := by simp at h₂; omega
          exact ih f₂ rest hle hle2
        · show m :: srtScanAux f₁ r = m :: srtScanAux f₂ r
          have hlt := matchAt_some_length hm
          have hle : r.length ≤ f₁ := by simp at h₁ hlt; omega
          have hle2 : r.length ≤ f₂ := by simp at h₂ hlt; omega
          rw [ih f₂ r hle hle2]

theorem srtScan_step_match {cs : List Char} {m : SrtMatch} {r : List Char}
    (h : matchAt cs = some (m, r)) : srtScan cs = m :: srtScan r := by
  cases cs with
  | nil =>
    rw [show matchAt [] = none from rfl] at h
    cases h
  | cons c rest =>
    rw [srtScan]
    simp only [List.length_cons]
    rw [srtScanAux, h]
    have hlt := matchAt_some_length h
    have hcg : srtScanAux rest.length r = srtScanAux r.length r := by
      refine srtScanAux_congr _ _ r ?_ (le_refl _)
      simp at hlt
      omega
    show m :: srtScanAux rest.length r = m :: srtScanAux r.length r
    rw [hcg]

theorem srtScan_step_skip {c : Char} {rest : List Char}
    (h : matchAt (c :: rest) = none) : srtScan (c :: rest) = srtScan rest := by
  rw [srtScan]
  simp only [List.length_cons]
  rw [srtScanAux, h]
  show srtScanAux rest.length rest = srtScan rest
  rfl

/-! ## The tag stripper leaves no complete tag behind -/

theorem splitAtGt_none_iff {l : List Char} : splitAtGt l = none ↔ '>' ∉ l := by
  induction l with
  | nil => simp [splitAtGt]
  | cons c cs ih =>
    rw [splitAtGt]
    by_cases hc : c = '>'
    · subst hc
      simp
    · rw [if_neg hc]
      simp [Option.map_eq_none', ih, Ne.symm hc]

theorem splitAtGt_some : ∀ {l m r : List Char}, splitAtGt l = some (m, r) →
    l = m ++ '>' :: r ∧ '>' ∉ m := by
  intro l
  induction l with
  | nil => intro m r h; simp [splitAtGt] at h
  | cons c cs ih =>
    intro m r h
    rw [splitAtGt] at h
    by_cases hc : c = '>'
    · rw [if_pos hc] at h
      cases h
      subst hc
      simp
    · rw [if_neg hc] at h
      rcases hs : splitAtGt cs with _ | ⟨m', r'⟩
      · rw [hs] at h; cases h
      · rw [hs] at h
        simp only [Option.map_some', Option.some.injEq, Prod.mk.injEq] at h
        obtain ⟨hm, hr⟩ := h
        subst hm; subst hr
        obtain ⟨he, hnm⟩ := ih hs
        constructor
        · rw [he]; simp
        · simp [hnm, Ne.symm hc, hc]

theorem splitAtGt_append {m r : List Char} (hm : '>' ∉ m) :
    splitAtGt (m ++ '>' :: r) = some (m, r) := by
  induction m with
  | nil => simp [splitAtGt]
  | cons c m' ih =>
    have hc : c ≠ '>' := fun e => hm (e ▸ List.mem_cons_self c m')
    have hm' : '>' ∉ m' := fun h => hm (List.mem_cons_of_mem _ h)
    rw [List.cons_append, splitAtGt, if_neg hc, ih hm']
    rfl

theorem startsTag_true_iff {l : List Char} :
    startsTag l = true ↔
      ∃ mid post, l = '<' :: (mid ++ '>' :: post) ∧ mid ≠ [] ∧ '>' ∉ mid := by
  cases l with
  | nil => simp [startsTag]
  | cons c rest =>
    rw [startsTag]
    by_cases hc : c = '<'
    · subst hc
      rw [if_pos rfl]
      rcases hs : splitAtGt rest with _ | ⟨m, r⟩
      · have hng := splitAtGt_none_iff.mp hs
        constructor
        · intro h; cases h
        · rintro ⟨mid, post, he, hne, hnm⟩
          simp only [List.cons.injEq, true_and] at he
          exact absurd (he ▸ List.mem_append_right mid (List.mem_cons_self _ _)) hng
      · obtain ⟨he, hnm⟩ := splitAtGt_some hs
        change (!m.isEmpty) = true ↔ _
        constructor
        · intro h
          simp only [Bool.not_eq_eq_eq_not, Bool.not_true, List.isEmpty_eq_false] at h
          exact ⟨m, r, by rw [he], h, hnm⟩
        · rintro ⟨mid, post, hemid, hne, hnmid⟩
          simp only [List.cons.injEq, true_and] at hemid
          have := splitAtGt_append (r := post) hnmid
          rw [← hemid, hs] at this
          simp only [Option.some.injEq, Prod.mk.injEq] at this
          obtain ⟨hm1, _⟩ := this
          subst hm1
          cases hme : m.isEmpty
          · rfl
          · exact absurd (List.isEmpty_iff.mp hme) hne
    · rw [if_neg hc]
      constructor
      · intro h; cases h
      · rintro ⟨mid, post, he, _, _⟩
        simp only [List.cons.injEq] at he
        exact absurd he.1 hc

theorem hasTag_true_iff {l : List Char} :
    hasTag l = true ↔
      ∃ pre mid post, l = pre ++ '<' :: (mid ++ '>' :: post) ∧ mid ≠ [] ∧
        '>' ∉ mid := by
  induction l with
  | nil =>
    simp only [hasTag]
    constructor
    · intro h; cases h
    · rintro ⟨pre, mid, post, he, _, _⟩
      cases pre <;> cases he
  | cons c rest ih =>
    rw [hasTag, Bool.or_eq_true, startsTag_true_iff, ih]
    constructor
    · rintro (⟨mid, post, he, hne, hnm⟩ | ⟨pre, mid, post, he, hne, hnm⟩)
      · exact ⟨[], mid, post, by simp [he], hne, hnm⟩
      · exact ⟨c :: pre, mid, post, by simp [he], hne, hnm⟩
    · rintro ⟨pre, mid, post, he, hne, hnm⟩
      cases pre with
      | nil =>
        simp only [List.nil_append, List.cons.injEq] at he
        exact Or.inl ⟨mid, post, by rw [he.1, he.2], hne, hnm⟩
      | cons p pre' =>
        simp only [List.cons_append, List.cons.injEq] at he
        exact Or.inr ⟨pre', mid, post, he.2, hne, hnm⟩

theorem removeTagsAux_sublist : ∀ (fuel : Nat) (l : List Char),
    List.Sublist (removeTagsAux fuel l) l := by
  intro fuel
  induction fuel with
  | zero => intro l; exact List.Sublist.refl l
  | succ f ih =>
    intro l
    cases l with
    | nil => exact List.Sublist.refl _
    | cons c rest =>
      rw [removeTagsAux]
      by_cases hc : c = '<'
      · rw [if_pos hc]
        rcases hs : splitAtGt rest with _ | ⟨m, r⟩
        · exact (ih rest).cons₂ c
        · show List.Sublist
            (if m.isEmpty = true then c :: removeTagsAux f rest
              else removeTagsAux f r) (c :: rest)
          by_cases hm : m.isEmpty
          · rw [if_pos hm]
            exact (ih rest).cons₂ c
          · rw [if_neg hm]
            obtain ⟨hre, _⟩ := splitAtGt_some hs
            have hr : List.Sublist r rest := by
              rw [hre]
              exact (List.sublist_cons_self '>' r).trans
                (List.sublist_append_right m ('>' :: r))
            exact ((ih r).trans hr).trans (List.sublist_cons_self c rest)
      · rw [if_neg hc]
        exact (ih rest).cons₂ c

theorem removeTagsAux_no_tag : ∀ (fuel : Nat) (l : List Char), l.length ≤ fuel →
    hasTag (removeTagsAux fuel l) = false := by
  intro fuel
  induction fuel with
  | zero =>
    intro l h
    have : l = [] := by
      cases l with
      | nil => rfl
      | cons a l' => simp at h
    subst this
    rfl
  | succ f ih =>
    intro l hlen
    cases l with
    | nil => rfl
    | cons c rest =>
      have hrl : rest.length ≤ f := by simp at hlen; omega
      rw [removeTagsAux]
      by_cases hc : c = '<'
      · rw [if_pos hc]
        rcases hs : splitAtGt rest with _ | ⟨m, r⟩
        · show hasTag (c :: removeTagsAux f rest) = false
          have hng : '>' ∉ rest := splitAtGt_none_iff.mp hs
          have hR := ih rest hrl
          have hngR : '>' ∉ removeTagsAux f rest :=
            fun hm => hng ((removeTagsAux_sublist f rest).subset hm)
          have hst : startsTag (c :: removeTagsAux f rest) = false := by
            rw [startsTag, if_pos hc, splitAtGt_none_iff.mpr hngR]
          rw [hasTag, hst, hR]
          rfl
        · show hasTag (if m.isEmpty = true then c :: removeTagsAux f rest
              else removeTagsAux f r) = false
          by_cases hm : m.isEmpty
          · rw [if_pos hm]
            have hme : m = [] := List.isEmpty_iff.mp hm
            obtain ⟨hre, _⟩ := splitAtGt_some hs
            rw [hme, List.nil_append] at hre
            have hR := ih rest hrl
            subst hre
            cases f with
            | zero => simp at hrl
            | succ f' =>
              have hstep : removeTagsAux (f' + 1) ('>' :: r)
                  = '>' :: removeTagsAux f' r := by
                rw [removeTagsAux, if_neg (by decide : ¬ ('>' : Char) = '<')]
              rw [hstep] at hR ⊢
              have hsg : splitAtGt ('>' :: removeTagsAux f' r)
                  = some ([], removeTagsAux f' r) := by
                rw [splitAtGt, if_pos rfl]
              have hst : startsTag ('<' :: '>' :: removeTagsAux f' r) = false := by
                rw [startsTag, if_pos rfl, hsg]
                rfl
              rw [hc, hasTag, hst, hR]
              rfl
          · rw [if_neg hm]
            obtain ⟨hre, _⟩ := splitAtGt_some hs
            have hr : r.length ≤ f := by
              rw [hre] at hrl
              simp at hrl
              omega
            exact ih r hr
      · rw [if_neg hc]
        have hR := ih rest hrl
        have hst : startsTag (c :: removeTagsAux f rest) = false := by
          rw [startsTag, if_neg hc]
        rw [hasTag, hst, hR]
        rfl

theorem removeTags_no_tag (l : List Char) : hasTag (removeTags l) = false :=
  removeTagsAux_no_tag l.length l (le_refl _)

theorem splitAtGt_map_nl : ∀ l : List Char,
    splitAtGt (l.map fun c => if c = '\n' then ' ' else c)
      = (splitAtGt l).map fun p =>
          (p.1.map fun c => if c = '\n' then ' ' else c,
            p.2.map fun c => if c = '\n' then ' ' else c) := by
  intro l
  induction l with
  | nil => rfl
  | cons c cs ih =>
    have hgt : ((if c = '\n' then ' ' else c) = '>') ↔ c = '>' := by
      by_cases hc : c = '\n'
      · subst hc
        constructor <;> intro h <;> exact absurd h (by decide)
      · simp [hc]
    rw [List.map_cons, splitAtGt, splitAtGt]
    by_cases hcg : c = '>'
    · rw [if_pos hcg, if_pos (hgt.mpr hcg)]
      rfl
    · rw [if_neg (fun h => hcg (hgt.mp h)), if_neg hcg, ih]
      rcases splitAtGt cs with _ | ⟨m, r⟩
      · rfl
      · rfl

theorem startsTag_map_nl (l : List Char) :
    startsTag (l.map fun c => if c = '\n' then ' ' else c) = startsTag l := by
  cases l with
  | nil => rfl
  | cons c cs =>
    rw [List.map_cons, startsTag, startsTag]
    have hlt : ((if c = '\n' then ' ' else c) = '<') ↔ c = '<' := by
      by_cases hc : c = '\n'
      · subst hc
        constructor <;> intro h <;> exact absurd h (by decide)
      · simp [hc]
    by_cases hc : c = '<'
    · rw [if_pos (hlt.mpr hc), if_pos hc, splitAtGt_map_nl]
      rcases splitAtGt cs with _ | ⟨m, r⟩
      · rfl
      · show (!(m.map fun c => if c = '\n' then ' ' else c).isEmpty) = !m.isEmpty
        cases m <;> rfl
    · rw [if_neg (fun h => hc (hlt.mp h)), if_neg hc]

theorem hasTag_map_nl (l : List Char) :
    hasTag (l.map fun c => if c = '\n' then ' ' else c) = hasTag l := by
  induction l with
  | nil => rfl
  | cons c cs ih =>
    rw [List.map_cons, hasTag, hasTag, ih]
    show (startsTag ((c :: cs).map fun c => if c = '\n' then ' ' else c)
        || hasTag cs) = _
    rw [startsTag_map_nl]

theorem hasTag_extend {l₁ l₂ : List Char} (h : List.IsInfix l₁ l₂)
    (ht : hasTag l₁ = true) : hasTag l₂ = true := by
  obtain ⟨s, t, rfl⟩ := h
  obtain ⟨pre, mid, post, he, hne, hnm⟩ := hasTag_true_iff.mp ht
  exact hasTag_true_iff.mpr ⟨s ++ pre, mid, post ++ t, by simp [he], hne, hnm⟩

theorem stripChars_part (l : List Char) : List.IsInfix (stripChars l) l := by
  obtain ⟨t, ht⟩ : List.IsSuffix
      ((l.dropWhile isWsChar).reverse.dropWhile isWsChar)
      (l.dropWhile isWsChar).reverse :=
    ⟨(l.dropWhile isWsChar).reverse.takeWhile isWsChar,
      List.takeWhile_append_dropWhile (p := isWsChar)
        (l := (l.dropWhile isWsChar).reverse)⟩
  have hBA : l.dropWhile isWsChar
      = ((l.dropWhile isWsChar).reverse.dropWhile isWsChar).reverse
          ++ t.reverse := by
    have hrev := congrArg List.reverse ht
    simpa [List.reverse_append] using hrev.symm
  refine ⟨l.takeWhile isWsChar, t.reverse, ?_⟩
  have hstep : stripChars l ++ t.reverse = l.dropWhile isWsChar := by
    show ((l.dropWhile isWsChar).reverse.dropWhile isWsChar).reverse ++ t.reverse
      = l.dropWhile isWsChar
    conv_rhs => rw [hBA]
  rw [List.append_assoc, hstep,
    List.takeWhile_append_dropWhile (p := isWsChar) (l := l)]

theorem hasTag_cleanText (t : List Char) : hasTag (cleanText t) = false := by
  cases h : hasTag (cleanText t)
  · rfl
  · exfalso
    have h2 : hasTag ((removeTags t).map fun c => if c = '\n' then ' ' else c)
        = true := hasTag_extend (stripChars_part _) h
    rw [hasTag_map_nl, removeTags_no_tag] at h2
    cases h2

/-! ## `parse_srt_content` on rendered well-formed input -/

theorem srtScan_render (bs : List Block) (h : ∀ b ∈ bs, WFblock b) :
    srtScan (renderSrt bs)
      = bs.map fun b =>
          (⟨b.num, tcChars ',' b.tstart, tcChars ',' b.tstop, b.txt⟩ : SrtMatch) := by
  induction bs with
  | nil => rfl
  | cons b bs' ih =>
    have hb := h b (by simp)
    have hrest : ∀ x ∈ bs', WFblock x := fun x hx => h x (by simp [hx])
    have hr : renderSrt (b :: bs') = renderBlock b ++ renderSrt bs' := by
      simp [renderSrt]
    rw [hr, srtScan_step_match (matchAt_render b hb (renderSrt bs')),
      srtScan_step_skip (matchAt_nl _), srtScan_step_skip (matchAt_nl _),
      ih hrest, List.map_cons]

theorem convert_tc (t : Tc) (h : WFtc t) :
    convert_srt_time_to_seconds ⟨tcChars ',' t⟩ = (⟨tcChars '.' t⟩ : String) := by
  obtain ⟨h1, h2, h3, h4⟩ := h
  have c1 := commaDot_digitChar (n := t.hh / 10) (by omega)
  have c2 := commaDot_digitChar (n := t.hh % 10) (by omega)
  have c3 := commaDot_digitChar (n := t.mm / 10) (by omega)
  have c4 := commaDot_digitChar (n := t.mm % 10) (by omega)
  have c5 := commaDot_digitChar (n := t.ss / 10) (by omega)
  have c6 := commaDot_digitChar (n := t.ss % 10) (by omega)
  have c7 := commaDot_digitChar (n := t.ms / 100) (by omega)
  have c8 := commaDot_digitChar (n := t.ms / 10 % 10) (by omega)
  have c9 := commaDot_digitChar (n := t.ms % 10) (by omega)
  simp [convert_srt_time_to_seconds, tcChars, c1, c2, c3, c4, c5, c6, c7, c8, c9]

theorem timeValChars_tc (t : Tc) (h : WFtc t) (sep : Char) :
    timeValChars (tcChars sep t) = tcVal t := by
  obtain ⟨h1, h2, h3, h4⟩ := h
  have c1 := digitChar_toNat (n := t.hh / 10) (by omega)
  have c2 := digitChar_toNat (n := t.hh % 10) (by omega)
  have c3 := digitChar_toNat (n := t.mm / 10) (by omega)
  have c4 := digitChar_toNat (n := t.mm % 10) (by omega)
  have c5 := digitChar_toNat (n := t.ss / 10) (by omega)
  have c6 := digitChar_toNat (n := t.ss % 10) (by omega)
  have c7 := digitChar_toNat (n := t.ms / 100) (by omega)
  have c8 := digitChar_toNat (n := t.ms / 10 % 10) (by omega)
  have c9 := digitChar_toNat (n := t.ms % 10) (by omega)
  rw [tcChars, timeValChars, c1, c2, c3, c4, c5, c6, c7, c8, c9, tcVal]
  omega

theorem filterMap_congr_mem {α β : Type} {f g : α → Option β} :
    ∀ {l : List α}, (∀ a ∈ l, f a = g a) → l.filterMap f = l.filterMap g := by
  intro l
  induction l with
  | nil => intro _; rfl
  | cons a l ih =>
    intro h
    rw [List.filterMap_cons, List.filterMap_cons, h a (by simp),
      ih fun x hx => h x (by simp [hx])]

theorem filterMap_map_sublist {α β γ : Type} (f : α → Option β) (g : β → γ)
    (h' : α → γ) (hfg : ∀ a b, f a = some b → g b = h' a) :
    ∀ l : List α, List.Sublist ((l.filterMap f).map g) (l.map h') := by
  intro l
  induction l with
  | nil => simp
  | cons a l ih =>
    rw [List.filterMap_cons, List.map_cons]
    rcases hf : f a with _ | b
    · exact ih.cons (h' a)
    · rw [List.map_cons, hfg a b hf]
      exact ih.cons₂ (h' a)

theorem parse_render (bs : List Block) (h : ∀ b ∈ bs, WFblock b) :
    parse_srt_content ⟨renderSrt bs⟩ = bs.filterMap cleanBlock := by
  show (srtScan (renderSrt bs)).filterMap _ = _
  rw [srtScan_render bs h, List.filterMap_map]
  refine filterMap_congr_mem fun b hb => ?_
  obtain ⟨_, _, hwf1, hwf2, _, _, _, _⟩ := h b hb
  show (let text := cleanText b.txt;
    if text.isEmpty then none
    else some ⟨digitsVal b.num, convert_srt_time_to_seconds ⟨tcChars ',' b.tstart⟩,
      convert_srt_time_to_seconds ⟨tcChars ',' b.tstop⟩, ⟨text⟩⟩) = cleanBlock b
  rw [cleanBlock, convert_tc b.tstart hwf1, convert_tc b.tstop hwf2]

/-!
## C5 — well-formed SRT inputs

The parser keeps each block's **own** index (`int(number)`), so the
output indexes of a well-formed `1..n` file are the source numbers of the
surviving blocks: strictly increasing, but with gaps wherever a block is
dropped, and starting at `1` only when the first block survives.
`start ≤ end` and markup-free text do hold.
-/

/-- C5 (amended): parsing a rendered well-formed SRT source yields
exactly the cleaned blocks (empty-cleaned blocks dropped), each segment
keeping its source block's number; the output indexes are strictly
increasing (though gaps appear at dropped blocks, cf. the
counterexample), every segment has `start ≤ end`, and no markup tag
survives in any text. -/
theorem C5_well_formed_parse (bs : List Block) (hwf : WFsrt bs) :
    parse_srt_content ⟨renderSrt bs⟩ = bs.filterMap cleanBlock ∧
    ((parse_srt_content ⟨renderSrt bs⟩).map Entry.number).Pairwise (· < ·) ∧
    ∀ e ∈ parse_srt_content ⟨renderSrt bs⟩,
      timeValChars e.start_time.data ≤ timeValChars e.end_time.data ∧
      hasTag e.text.data = false := by
  obtain ⟨hblocks, hsorted⟩ := hwf
  have hp := parse_render bs hblocks
  refine ⟨hp, ?_, ?_⟩
  · rw [hp]
    have hsub : List.Sublist ((bs.filterMap cleanBlock).map Entry.number)
        (bs.map fun b => digitsVal b.num) := by
      refine filterMap_map_sublist cleanBlock Entry.number _ ?_ bs
      intro b e hbe
      rw [cleanBlock] at hbe
      split at hbe
      · cases hbe
      · cases hbe
        rfl
    exact hsorted.sublist hsub
  · intro e he
    rw [hp] at he
    obtain ⟨b, hb, hbe⟩ := List.mem_filterMap.mp he
    obtain ⟨_, _, hwf1, hwf2, hle, _, _, _⟩ := hblocks b hb
    rw [cleanBlock] at hbe
    split at hbe
    · cases hbe
    · cases hbe
      constructor
      · show timeValChars (tcChars '.' b.tstart) ≤ timeValChars (tcChars '.' b.tstop)
        rw [timeValChars_tc b.tstart hwf1, timeValChars_tc b.tstop hwf2]
        exact hle
      · exact hasTag_cleanText b.txt

/-- C5 (witness): the amended statement at the two-block source whose
first block cleans to empty. -/
theorem C5_well_formed_parse_witness :
    WFsrt [wb1, wb2] ∧
    (parse_srt_content ⟨renderSrt [wb1, wb2]⟩ = [wb1, wb2].filterMap cleanBlock ∧
     ((parse_srt_content ⟨renderSrt [wb1, wb2]⟩).map Entry.number).Pairwise (· < ·) ∧
     ∀ e ∈ parse_srt_content ⟨renderSrt [wb1, wb2]⟩,
       timeValChars e.start_time.data ≤ timeValChars e.end_time.data ∧
       hasTag e.text.data = false) :=
  ⟨by decide, C5_well_formed_parse [wb1, wb2] (by decide)⟩

end Mediawarn
